import Mathlib

/-!
Shallow embedding of the boltql secondary-index layer.

The embedding follows the current source (`part_000` of the repository):
the key codec (`marshalKeyValue` / `unmarshalKeyValue`), the index
maintainer (`Table.Put` / `Table.Delete`), the exact-match lookup
(`Table.Get`), the range scanner (`Table.Scan`), `Table.ForEach` and
`DataStore.GetTable`.  The ordered byte-keyed store (boltdb buckets and
cursors) is modelled by sorted association lists of byte strings, and the
scalar value codec (the external `typedbuffer` collaborator, out of scope
for the repository itself) is modelled per the spec's contract in section 6:
an injective, self-delimiting, per-value encoding with a switchable
null-sentinel, plus a raw-sequence encoder with a fixed null-sentinel.
-/

/-- Errors surfaced by the layer, mirroring the package-level error values
(`NO_TABLE`, `NO_INDEX`, `NO_KEY`, `SCHEMA_CORRUPTED`, `BAD_VALUES`), plus
`encodeErr` / `decodeErr` for errors propagated verbatim from the scalar
codec, and `panicOOB` marking executions on which the Go code would panic
with an index-out-of-range (such executions are excluded by the validity
hypotheses of every theorem below). -/
inductive Err where
  | noTable
  | noIndex
  | noKey
  | schemaCorrupted
  | badValues
  | encodeErr
  | decodeErr
  | panicOOB
  deriving DecidableEq, Repr

deriving instance DecidableEq for Except

/-- Field values of a record: the tagged union of the spec's data model
(String | Integer | Bytes | Null | Auto-marker), plus `uint` for the
unsigned sequence numbers produced by the store's `NextSequence`.
`auto` is the `AUTOINCREMENT` marker; it is the only value the scalar
codec cannot encode. -/
inductive Value where
  | str : String → Value
  | int : Int → Value
  | uint : Nat → Value
  | bytes : List Nat → Value
  | bool : Bool → Value
  | null : Value
  | auto : Value
  deriving DecidableEq, Repr

/-- Self-delimiting encoding of a natural number: n ones followed by a zero. -/
def encNat (n : Nat) : List Nat :=
  List.replicate n 1 ++ [0]

/-- Inverse of `encNat`: strips leading ones up to a zero. -/
def decNat : List Nat → Option (Nat × List Nat)
  | 0 :: rest => some (0, rest)
  | 1 :: rest =>
    match decNat rest with
    | some (n, r) => some (n + 1, r)
    | none => none
  | _ => none

/-- Reads `k` consecutive `encNat`-encoded numbers. -/
def decNats : Nat → List Nat → Option (List Nat × List Nat)
  | 0, r => some ([], r)
  | k + 1, r =>
    match decNat r with
    | none => none
    | some (n, r1) =>
      match decNats k r1 with
      | none => none
      | some (ns, r2) => some (n :: ns, r2)

/-- Encoding of one scalar value, parameterized by the null-ordering mode
(`nilFirst`): the null sentinel is the lowest tag when nulls sort first and
the highest tag when they sort last, all other values encode independently
of the mode.  The `auto` marker is not encodable (the codec reports an
error on it).  Modelled from the spec's scalar-codec contract (section 6). -/
def encOne (nilFirst : Bool) : Value → Option (List Nat)
  | .null => some [if nilFirst then 0 else 6]
  | .uint n => some (1 :: encNat n)
  | .int i => some (2 :: (if i < 0 then 0 else 1) :: encNat i.natAbs)
  | .str s => some (3 :: encNat s.data.length ++ (s.data.map Char.toNat).flatMap encNat)
  | .bytes bs => some (4 :: encNat bs.length ++ bs.flatMap encNat)
  | .bool b => some [5, if b then 1 else 0]
  | .auto => none

/-- Decoding of one value's payload given its tag byte. -/
def decOneTag (t : Nat) (rest : List Nat) : Option (Value × List Nat) :=
  if t = 0 then some (.null, rest)
  else if t = 6 then some (.null, rest)
  else if t = 1 then (decNat rest).map (fun p => (.uint p.1, p.2))
  else if t = 2 then
    match rest with
    | 0 :: r => (decNat r).map (fun p => (.int (-(p.1 : Int)), p.2))
    | 1 :: r => (decNat r).map (fun p => (.int (p.1 : Int), p.2))
    | _ => none
  else if t = 3 then
    (decNat rest).bind fun p =>
      (decNats p.1 p.2).map fun q => (.str ⟨q.1.map Char.ofNat⟩, q.2)
  else if t = 4 then
    (decNat rest).bind fun p =>
      (decNats p.1 p.2).map fun q => (.bytes q.1, q.2)
  else if t = 5 then
    match rest with
    | 0 :: r => some (.bool false, r)
    | 1 :: r => some (.bool true, r)
    | _ => none
  else none

/-- Decoding of one scalar value together with the remaining bytes.  Both
null sentinels are recognized regardless of the mode the data was encoded
under, matching the observed behaviour of the source, which always decodes
with `DecodeAll(false, …)` data written under either mode. -/
def decOne : List Nat → Option (Value × List Nat)
  | [] => none
  | t :: rest => decOneTag t rest

/-- Concatenated encoding of a field list under a null-ordering mode
(`typedbuffer.EncodeNils`); fails iff some field is the `auto` marker. -/
def EncodeNils (nilFirst : Bool) : List Value → Option (List Nat)
  | [] => some []
  | v :: rest =>
    match encOne nilFirst v with
    | none => none
    | some b =>
      match EncodeNils nilFirst rest with
      | none => none
      | some bs => some (b ++ bs)

/-- Raw-sequence encoder (`typedbuffer.Encode`).  Modelled from the spec:
it is the unparameterized encoder, so its null sentinel is one fixed
choice (the nulls-last sentinel here); on null-free values it agrees with
`EncodeNils` under either mode. -/
def Encode (vs : List Value) : Option (List Nat) :=
  EncodeNils false vs

/-- Fuel-indexed worker for `DecodeAll`; the fuel bounds the number of
decoded values and is instantiated with the byte length, which always
suffices because every value consumes at least one byte. -/
def decodeAllAux : Nat → List Nat → Option (List Value)
  | _, [] => some []
  | 0, _ :: _ => none
  | f + 1, b :: bs =>
    match decOne (b :: bs) with
    | none => none
    | some (v, rest) =>
      match decodeAllAux f rest with
      | none => none
      | some vs => some (v :: vs)

/-- Decoding of a whole buffer into the list of values it encodes
(`typedbuffer.DecodeAll`).  The first argument mirrors the flag the source
passes (always `false`); decoding does not depend on it. -/
def DecodeAll (_first : Bool) (b : List Nat) : Option (List Value) :=
  decodeAllAux b.length b

theorem decNat_encNat (n : Nat) (r : List Nat) :
    decNat (encNat n ++ r) = some (n, r) := by
  induction n with
  | zero => rfl
  | succ k ih =>
    have ih' : decNat (List.replicate k 1 ++ 0 :: r) = some (k, r) := by
      simpa [encNat, List.append_assoc] using ih
    simp [encNat, List.replicate_succ, decNat, ih']

theorem decNats_enc (l : List Nat) (r : List Nat) :
    decNats l.length (l.flatMap encNat ++ r) = some (l, r) := by
  induction l generalizing r with
  | nil => rfl
  | cons x xs ih =>
    simp only [List.flatMap_cons, List.length_cons, List.append_assoc]
    simp [decNats, decNat_encNat, ih]

theorem decOne_encOne (nf : Bool) (v : Value) (b r : List Nat)
    (h : encOne nf v = some b) : decOne (b ++ r) = some (v, r) := by
  cases v with
  | null =>
    simp only [encOne, Option.some.injEq] at h
    subst h
    cases nf <;> simp [decOne, decOneTag]
  | uint n =>
    simp only [encOne, Option.some.injEq] at h
    subst h
    simp [decOne, decOneTag, decNat_encNat]
  | int i =>
    simp only [encOne, Option.some.injEq] at h
    subst h
    by_cases hi : i < 0
    · have hv : -(i.natAbs : Int) = i := by omega
      have hv2 : -|i| = i := by rw [abs_of_neg hi, neg_neg]
      simp [hi, decOne, decOneTag, decNat_encNat, hv, hv2]
    · have hv : (i.natAbs : Int) = i := by omega
      have hv2 : |i| = i := abs_of_nonneg (by omega)
      simp [hi, decOne, decOneTag, decNat_encNat, hv, hv2]
  | str s =>
    simp only [encOne, Option.some.injEq] at h
    subst h
    have hmap : (s.data.map Char.toNat).map Char.ofNat = s.data := by
      rw [List.map_map]
      have hco : (Char.ofNat ∘ Char.toNat) = id := by
        funext c
        exact Char.ofNat_toNat c
      rw [hco, List.map_id]
    have hlen : s.data.length = (s.data.map Char.toNat).length :=
      (List.length_map _ _).symm
    have htag : decOne (3 :: (encNat (s.data.map Char.toNat).length ++
        ((s.data.map Char.toNat).flatMap encNat ++ r))) =
        ((decNats (s.data.map Char.toNat).length
            ((s.data.map Char.toNat).flatMap encNat ++ r)).map
          fun q => (.str ⟨q.1.map Char.ofNat⟩, q.2)) := by
      simp only [decOne, decOneTag]
      norm_num
      rw [decNat_encNat]
      rfl
    simp only [List.cons_append, List.append_assoc]
    rw [hlen, htag, decNats_enc]
    simp [hmap]
  | bytes bs =>
    simp only [encOne, Option.some.injEq] at h
    subst h
    simp only [List.cons_append, List.append_assoc]
    simp [decOne, decOneTag, decNat_encNat, decNats_enc]
  | bool b0 =>
    simp only [encOne, Option.some.injEq] at h
    subst h
    cases b0 <;> simp [decOne, decOneTag]
  | auto => simp [encOne] at h

theorem encOne_length_pos (nf : Bool) (v : Value) (b : List Nat)
    (h : encOne nf v = some b) : 0 < b.length := by
  cases v with
  | null => simp only [encOne, Option.some.injEq] at h; subst h; simp
  | uint n => simp only [encOne, Option.some.injEq] at h; subst h; simp
  | int i => simp only [encOne, Option.some.injEq] at h; subst h; simp
  | str s => simp only [encOne, Option.some.injEq] at h; subst h; simp
  | bytes bs => simp only [encOne, Option.some.injEq] at h; subst h; simp
  | bool b0 => simp only [encOne, Option.some.injEq] at h; subst h; simp
  | auto => simp [encOne] at h

/-- If every value in the list is encodable (not the `auto` marker), the
concatenated encoding exists. -/
theorem EncodeNils_isSome (nf : Bool) (vs : List Value)
    (h : ∀ v ∈ vs, v ≠ .auto) : ∃ bs, EncodeNils nf vs = some bs := by
  induction vs with
  | nil => exact ⟨[], rfl⟩
  | cons v rest ih =>
    have hv : v ≠ .auto := h v (by simp)
    have hb : ∃ b, encOne nf v = some b := by
      cases v <;> simp [encOne] at hv ⊢
    obtain ⟨b, hb⟩ := hb
    obtain ⟨bs, hbs⟩ := ih (fun x hx => h x (by simp [hx]))
    exact ⟨b ++ bs, by simp [EncodeNils, hb, hbs]⟩

theorem decodeAllAux_enc (nf : Bool) (vs : List Value) (bs : List Nat)
    (h : EncodeNils nf vs = some bs) :
    ∀ fuel, bs.length ≤ fuel → decodeAllAux fuel bs = some vs := by
  induction vs generalizing bs with
  | nil =>
    intro fuel _
    simp only [EncodeNils, Option.some.injEq] at h
    subst h
    cases fuel <;> rfl
  | cons v rest ih =>
    intro fuel hfuel
    simp only [EncodeNils] at h
    cases hb : encOne nf v with
    | none => simp [hb] at h
    | some b =>
      simp only [hb] at h
      cases hbs : EncodeNils nf rest with
      | none => simp [hbs] at h
      | some brest =>
        simp only [hbs, Option.some.injEq] at h
        subst h
        have hpos := encOne_length_pos nf v b hb
        have hdec := decOne_encOne nf v b brest hb
        cases b with
        | nil => simp at hpos
        | cons x xs =>
          cases fuel with
          | zero => simp at hfuel
          | succ f =>
            have hrest : decodeAllAux f brest = some rest := by
              apply ih brest hbs f
              have h3 : (x :: xs ++ brest).length ≤ f + 1 := hfuel
              simp at h3
              omega
            simp only [List.cons_append] at hdec ⊢
            simp only [decodeAllAux]
            rw [hdec]
            simp [hrest]

/-- Codec round trip: decoding a concatenated encoding recovers the
original field list, whichever null-ordering mode it was written under. -/
theorem DecodeAll_EncodeNils (first nf : Bool) (vs : List Value) (bs : List Nat)
    (h : EncodeNils nf vs = some bs) : DecodeAll first bs = some vs :=
  decodeAllAux_enc nf vs bs h bs.length (le_refl _)

/-- Null-free values encode identically under both null-ordering modes. -/
theorem encOne_mode_indep (b1 b2 : Bool) (v : Value) (h : v ≠ .null) :
    encOne b1 v = encOne b2 v := by
  cases v <;> simp_all [encOne]

/-- On null-free field lists the raw encoder and the mode-parameterized
encoder produce the same bytes. -/
theorem EncodeNils_mode_indep (b1 b2 : Bool) (vs : List Value)
    (h : ∀ v ∈ vs, v ≠ .null) : EncodeNils b1 vs = EncodeNils b2 vs := by
  induction vs with
  | nil => rfl
  | cons v rest ih =>
    have h1 : v ≠ .null := h v (by simp)
    have h2 := ih (fun x hx => h x (by simp [hx]))
    simp only [EncodeNils]
    rw [encOne_mode_indep b1 b2 v h1, h2]

/-- One slot of an index definition: `field` is the source field position
in the record, `pos` the slot the field occupies in the composite key
(its position in the index's declared field list).  Mirrors `indexpos`. -/
structure indexpos where
  field : Nat
  pos : Nat
  deriving DecidableEq, Repr

/-- An index definition: the null-ordering policy plus the canonicalized
slot list (sorted ascending by source field).  Mirrors `indexinfo`. -/
structure indexinfo where
  nilFirst : Bool
  iplist : List indexpos
  deriving DecidableEq, Repr

/-- Insertion of one slot into a field-sorted slot list. -/
def ipInsert (x : indexpos) : List indexpos → List indexpos
  | [] => [x]
  | y :: ys => if x.field < y.field then x :: y :: ys else y :: ipInsert x ys

/-- Sorting of a slot list by source field.  The Go source sorts with the
standard library's (unstable) `sort.Sort`; for the pairwise-distinct
fields of a well-formed index any correct sort gives the same result, so
insertion sort is used here. -/
def ipSortIns : List indexpos → List indexpos
  | [] => []
  | x :: xs => ipInsert x (ipSortIns xs)

/-- Builds the canonical slot list from a declared field-position list:
slot `i` holds declared field `fields[i]`, then the slots are sorted by
source field.  Mirrors `makeIndexPos`. -/
def makeIndexPos (fields : List Nat) : List indexpos :=
  ipSortIns ((fields.enum).map fun p => ⟨p.2, p.1⟩)

/-- The partition loop of `marshalKeyValue`: walks the record's fields at
positions `fi, fi+1, …`, consuming the head of the (sorted) slot list
whenever the current position is its source field; a consumed field is
written into the composite-key buffer `vkey` at the slot's declared
position, every other field is appended to the residualFields buffer `vval`.
`List.set` ignores an out-of-range `pos`, where the Go code would panic;
the validity hypotheses of the theorems below rule that case out. -/
def marshalLoop : List indexpos → Nat → List Value → List Value → List Value →
    List Value × List Value
  | _, _, [], vkey, vval => (vkey, vval)
  | ip :: ipr, fi, fv :: fs, vkey, vval =>
    if fi = ip.field then marshalLoop ipr (fi + 1) fs (vkey.set ip.pos fv) vval
    else marshalLoop (ip :: ipr) (fi + 1) fs vkey (vval ++ [fv])
  | [], fi, fv :: fs, vkey, vval => marshalLoop [] (fi + 1) fs vkey (vval ++ [fv])

/-- Marshal of a field list into the `(key, value)` byte pair for one
index.  With an empty slot list the result is `(nil, nil)` — modelled as
`(none, [])` — signalling "no key portion", which `Put` treats as "skip
this index".  A `nil` interface slot left unassigned in the Go `vkey`
buffer encodes as a null, so the buffer starts as nulls here.  Mirrors
`indexinfo.marshalKeyValue`. -/
def indexinfo.marshalKeyValue (info : indexinfo) (fields : List Value) :
    Except Err (Option (List Nat) × List Nat) :=
  if info.iplist.length = 0 then .ok (none, [])
  else
    let p := marshalLoop info.iplist 0 fields
      (List.replicate info.iplist.length Value.null) []
    match EncodeNils info.nilFirst p.1 with
    | none => .error .encodeErr
    | some kb =>
      if p.2.length > 0 then
        match EncodeNils info.nilFirst p.2 with
        | none => .error .encodeErr
        | some vb => .ok (some kb, vb)
      else .ok (some kb, [])

/-- The reassembly loop of `unmarshalKeyValue`: for each original position
`i` below the total field count, takes the decoded key element at the
current slot's declared position when `i` is that slot's source field,
otherwise the next decoded residualFields element.  `panicOOB` marks the inputs
on which the Go code would panic with an index-out-of-range. -/
def unmarshalLoop (vkey : List Value) :
    List indexpos → List Value → Nat → Nat → Except Err (List Value)
  | _, _, _, 0 => .ok []
  | ip :: ipr, vval, i, count + 1 =>
    if i = ip.field then
      match vkey.get? ip.pos with
      | none => .error .panicOOB
      | some x =>
        match unmarshalLoop vkey ipr vval (i + 1) count with
        | .error e => .error e
        | .ok rest => .ok (x :: rest)
    else
      match vval with
      | [] => .error .panicOOB
      | y :: ys =>
        match unmarshalLoop vkey (ip :: ipr) ys (i + 1) count with
        | .error e => .error e
        | .ok rest => .ok (y :: rest)
  | [], vval, i, count + 1 =>
    match vval with
    | [] => .error .panicOOB
    | y :: ys =>
      match unmarshalLoop vkey [] ys (i + 1) count with
      | .error e => .error e
      | .ok rest => .ok (y :: rest)

/-- Unmarshal of a `(key, value)` byte pair back into the field list, by
decoding both buffers and replaying the marshal partition.  Mirrors
`indexinfo.unmarshalKeyValue` (which always decodes with flag `false`). -/
def indexinfo.unmarshalKeyValue (info : indexinfo) (k v : List Nat) :
    Except Err (List Value) :=
  match DecodeAll false k with
  | none => .error .decodeErr
  | some vkey =>
    match DecodeAll false v with
    | none => .error .decodeErr
    | some vval => unmarshalLoop vkey info.iplist vval 0 (vkey.length + vval.length)

/-- Specification companion of `marshalLoop`, key half: the composite-key
buffer after the walk, i.e. `vkey` with each slot's field written at the
slot's declared position. -/
def keyedSets : List indexpos → Nat → List Value → List Value → List Value
  | _, _, [], vk => vk
  | ip :: ipr, fi, fv :: fs, vk =>
    if fi = ip.field then keyedSets ipr (fi + 1) fs (vk.set ip.pos fv)
    else keyedSets (ip :: ipr) (fi + 1) fs vk
  | [], _, _, vk => vk

/-- Specification companion of `marshalLoop`, value half: the residualFields
fields, i.e. the fields at positions not selected by the slot list, in
original order. -/
def residualFields : List indexpos → Nat → List Value → List Value
  | _, _, [] => []
  | ip :: ipr, fi, fv :: fs =>
    if fi = ip.field then residualFields ipr (fi + 1) fs
    else fv :: residualFields (ip :: ipr) (fi + 1) fs
  | [], _, fs => fs

theorem keyedSets_nil (fi : Nat) (fs vk : List Value) :
    keyedSets [] fi fs vk = vk := by
  cases fs <;> rfl

theorem residualFields_nil (fi : Nat) (fs : List Value) :
    residualFields [] fi fs = fs := by
  cases fs <;> rfl

theorem marshalLoop_eq (ipl : List indexpos) (fi : Nat) (fs vk vv : List Value) :
    marshalLoop ipl fi fs vk vv = (keyedSets ipl fi fs vk, vv ++ residualFields ipl fi fs) := by
  induction fs generalizing ipl fi vk vv with
  | nil => cases ipl <;> simp [marshalLoop, keyedSets, residualFields]
  | cons fv fs ih =>
    cases ipl with
    | nil => simp [marshalLoop, keyedSets_nil, residualFields_nil, ih]
    | cons ip ipr =>
      by_cases hf : fi = ip.field
      · simp [marshalLoop, keyedSets, residualFields, hf, ih]
      · simp [marshalLoop, keyedSets, residualFields, hf, ih]

/-- Validity of an index definition for a record arity, per the spec's
data model (section 3): at least one selected field (a zero-field index
has no key portion and is skipped by every operation), source fields
pairwise distinct, sorted ascending (the canonical form `makeIndexPos`
produces) and each below the arity; the declared slot positions are a
permutation of `0 .. len-1` (each below the length, no duplicates, all
present). -/
def indexinfo.validFor (info : indexinfo) (arity : Nat) : Prop :=
  info.iplist ≠ [] ∧
  List.Pairwise (fun a b => a.field < b.field) info.iplist ∧
  (∀ ip ∈ info.iplist, ip.field < arity) ∧
  (∀ ip ∈ info.iplist, ip.pos < info.iplist.length) ∧
  (List.map indexpos.pos info.iplist).Nodup ∧
  (∀ p < info.iplist.length, p ∈ List.map indexpos.pos info.iplist)

instance (info : indexinfo) (arity : Nat) : Decidable (info.validFor arity) := by
  unfold indexinfo.validFor
  infer_instance

theorem setGet_ne {α : Type} (l : List α) (i j : Nat) (a : α) (h : i ≠ j) :
    (l.set i a).get? j = l.get? j := by
  induction l generalizing i j with
  | nil => simp
  | cons x xs ih =>
    cases i with
    | zero => cases j with
      | zero => omega
      | succ j2 => simp [List.set]
    | succ i2 =>
      cases j with
      | zero => simp [List.set]
      | succ j2 => simpa [List.set] using ih i2 j2 (by omega)

theorem setGet_self {α : Type} (l : List α) (i : Nat) (a : α) (h : i < l.length) :
    (l.set i a).get? i = some a := by
  induction l generalizing i with
  | nil => simp at h
  | cons x xs ih =>
    cases i with
    | zero => simp [List.set]
    | succ i2 => simpa [List.set] using ih i2 (by simpa using h)

theorem keyedSets_nilFs (ipl : List indexpos) (fi : Nat) (vk : List Value) :
    keyedSets ipl fi [] vk = vk := by
  cases ipl <;> rfl

theorem residualFields_nilFs (ipl : List indexpos) (fi : Nat) :
    residualFields ipl fi [] = [] := by
  cases ipl <;> rfl

theorem keyedSets_length (ipl : List indexpos) (fi : Nat) (fs vk : List Value) :
    (keyedSets ipl fi fs vk).length = vk.length := by
  induction fs generalizing ipl fi vk with
  | nil => rw [keyedSets_nilFs]
  | cons fv fs ih =>
    cases ipl with
    | nil => rw [keyedSets_nil]
    | cons ip ipr =>
      by_cases hf : fi = ip.field
      · simp only [keyedSets, hf, if_true]
        rw [ih]
        exact List.length_set ..
      · simp only [keyedSets, hf, if_false]
        exact ih ..

theorem keyedSets_get_notMem (fs : List Value) (ipl : List indexpos) (fi : Nat)
    (vk : List Value) (p : Nat) (hp : p ∉ ipl.map indexpos.pos) :
    (keyedSets ipl fi fs vk).get? p = vk.get? p := by
  induction fs generalizing ipl fi vk with
  | nil => rw [keyedSets_nilFs]
  | cons fv fs ih =>
    cases ipl with
    | nil => rw [keyedSets_nil]
    | cons ip ipr =>
      simp only [List.map_cons, List.mem_cons, not_or] at hp
      by_cases hf : fi = ip.field
      · simp only [keyedSets, hf, if_true]
        rw [ih _ _ _ hp.2, setGet_ne _ _ _ _ (fun he => hp.1 he.symm)]
      · simp only [keyedSets, hf, if_false]
        exact ih _ _ _ (by simp [hp])

theorem keyedSets_get_mem (fs : List Value) (ipl : List indexpos) (fi : Nat)
    (vk : List Value)
    (hsort : List.Pairwise (fun a b => a.field < b.field) ipl)
    (hlb : ∀ ip ∈ ipl, fi ≤ ip.field)
    (hub : ∀ ip ∈ ipl, ip.field < fi + fs.length)
    (hnd : (ipl.map indexpos.pos).Nodup)
    (hpl : ∀ ip ∈ ipl, ip.pos < vk.length) :
    ∀ ip ∈ ipl, (keyedSets ipl fi fs vk).get? ip.pos = fs.get? (ip.field - fi) := by
  induction fs generalizing ipl fi vk with
  | nil =>
    intro ip hip
    have h1 := hlb ip hip
    have h2 := hub ip hip
    simp only [List.length_nil] at h2
    omega
  | cons fv fs ih =>
    cases ipl with
    | nil => intro ip hip; simp at hip
    | cons ip0 ipr =>
      simp only [List.map_cons, List.nodup_cons] at hnd
      rcases List.pairwise_cons.mp hsort with ⟨hhd, htl⟩
      intro ip hip
      by_cases hf : fi = ip0.field
      · simp only [keyedSets]
        rw [if_pos hf]
        rcases List.mem_cons.mp hip with rfl | hmem
        · have hrd : ip.pos ∉ ipr.map indexpos.pos := hnd.1
          rw [keyedSets_get_notMem _ _ _ _ _ hrd,
            setGet_self _ _ _ (hpl ip (by simp))]
          have h0 : ip.field - fi = 0 := by omega
          rw [h0]
          rfl
        · have h1 : ip.field - fi = (ip.field - (fi + 1)) + 1 := by
            have := hhd ip hmem
            omega
          rw [h1]
          have hub2 : ∀ q ∈ ipr, q.field < (fi + 1) + fs.length := by
            intro q hq
            have := hub q (by simp [hq])
            simp only [List.length_cons] at this
            omega
          have hres := ih ipr (fi + 1) (vk.set ip0.pos fv) htl
            (fun q hq => by have := hhd q hq; omega)
            hub2
            hnd.2
            (fun q hq => by rw [List.length_set]; exact hpl q (by simp [hq]))
            ip hmem
          rw [hres]
          rfl
      · simp only [keyedSets]
        rw [if_neg hf]
        have hlb2 : ∀ q ∈ ip0 :: ipr, fi + 1 ≤ q.field := by
          intro q hq
          rcases List.mem_cons.mp hq with rfl | hq2
          · have := hlb q (by simp); omega
          · have h0 := hlb ip0 (by simp)
            have := hhd q hq2
            omega
        have hub2 : ∀ q ∈ ip0 :: ipr, q.field < (fi + 1) + fs.length := by
          intro q hq
          have := hub q hq
          simp only [List.length_cons] at this
          omega
        have h1 : ip.field - fi = (ip.field - (fi + 1)) + 1 := by
          have := hlb2 ip hip
          omega
        rw [h1]
        have hres := ih (ip0 :: ipr) (fi + 1) vk hsort hlb2 hub2
          (by simp only [List.map_cons, List.nodup_cons]; exact hnd)
          hpl ip hip
        rw [hres]
        rfl

theorem keyedSets_mem (fs : List Value) (ipl : List indexpos) (fi : Nat)
    (vk : List Value) (x : Value) (hx : x ∈ keyedSets ipl fi fs vk) :
    x ∈ vk ∨ x ∈ fs := by
  induction fs generalizing ipl fi vk with
  | nil => rw [keyedSets_nilFs] at hx; exact Or.inl hx
  | cons fv fs ih =>
    cases ipl with
    | nil =>
      rw [keyedSets_nil] at hx
      exact Or.inl hx
    | cons ip0 ipr =>
      simp only [keyedSets] at hx
      by_cases hf : fi = ip0.field
      · rw [if_pos hf] at hx
        rcases ih _ _ _ hx with hvk | hfs
        · rcases List.mem_or_eq_of_mem_set hvk with h1 | h2
          · exact Or.inl h1
          · exact Or.inr (by simp [h2])
        · exact Or.inr (by simp [hfs])
      · rw [if_neg hf] at hx
        rcases ih _ _ _ hx with hvk | hfs
        · exact Or.inl hvk
        · exact Or.inr (by simp [hfs])

theorem residualFields_mem (fs : List Value) (ipl : List indexpos) (fi : Nat)
    (x : Value) (hx : x ∈ residualFields ipl fi fs) : x ∈ fs := by
  induction fs generalizing ipl fi with
  | nil => rw [residualFields_nilFs] at hx; simp at hx
  | cons fv fs ih =>
    cases ipl with
    | nil =>
      rw [residualFields_nil] at hx
      exact hx
    | cons ip0 ipr =>
      simp only [residualFields] at hx
      by_cases hf : fi = ip0.field
      · rw [if_pos hf] at hx
        exact List.mem_cons_of_mem _ (ih _ _ hx)
      · rw [if_neg hf] at hx
        rcases List.mem_cons.mp hx with rfl | h2
        · simp
        · exact List.mem_cons_of_mem _ (ih _ _ h2)

theorem residualFields_length (fs : List Value) (ipl : List indexpos) (fi : Nat)
    (hsort : List.Pairwise (fun a b => a.field < b.field) ipl)
    (hlb : ∀ ip ∈ ipl, fi ≤ ip.field)
    (hub : ∀ ip ∈ ipl, ip.field < fi + fs.length) :
    (residualFields ipl fi fs).length + ipl.length = fs.length := by
  induction fs generalizing ipl fi with
  | nil =>
    cases ipl with
    | nil => simp [residualFields_nilFs]
    | cons ip0 ipr =>
      have h1 := hlb ip0 (by simp)
      have h2 := hub ip0 (by simp)
      simp only [List.length_nil] at h2
      omega
  | cons fv fs ih =>
    cases ipl with
    | nil => rw [residualFields_nil]; simp
    | cons ip0 ipr =>
      rcases List.pairwise_cons.mp hsort with ⟨hhd, htl⟩
      simp only [residualFields]
      by_cases hf : fi = ip0.field
      · rw [if_pos hf]
        have hub2 : ∀ q ∈ ipr, q.field < (fi + 1) + fs.length := by
          intro q hq
          have := hub q (by simp [hq])
          simp only [List.length_cons] at this
          omega
        have := ih ipr (fi + 1) htl (fun q hq => by have := hhd q hq; omega) hub2
        simp only [List.length_cons]
        omega
      · rw [if_neg hf]
        have hlb2 : ∀ q ∈ ip0 :: ipr, fi + 1 ≤ q.field := by
          intro q hq
          rcases List.mem_cons.mp hq with rfl | hq2
          · have := hlb q (by simp); omega
          · have h0 := hlb ip0 (by simp)
            have := hhd q hq2
            omega
        have hub2 : ∀ q ∈ ip0 :: ipr, q.field < (fi + 1) + fs.length := by
          intro q hq
          have := hub q hq
          simp only [List.length_cons] at this
          omega
        have := ih (ip0 :: ipr) (fi + 1) hsort hlb2 hub2
        simp only [List.length_cons] at this ⊢
        omega

theorem unmarshalLoop_zero (vk : List Value) (ipl : List indexpos)
    (vv : List Value) (i : Nat) : unmarshalLoop vk ipl vv i 0 = .ok [] := by
  cases ipl <;> cases vv <;> rfl

theorem unmarshalLoop_replay (fs : List Value) (ipl : List indexpos) (fi : Nat)
    (vkF : List Value)
    (hsort : List.Pairwise (fun a b => a.field < b.field) ipl)
    (hlb : ∀ ip ∈ ipl, fi ≤ ip.field)
    (hub : ∀ ip ∈ ipl, ip.field < fi + fs.length)
    (hrd : ∀ ip ∈ ipl, vkF.get? ip.pos = fs.get? (ip.field - fi)) :
    unmarshalLoop vkF ipl (residualFields ipl fi fs) fi fs.length = .ok fs := by
  induction fs generalizing ipl fi with
  | nil =>
    cases ipl with
    | nil => simp [residualFields_nilFs, unmarshalLoop_zero]
    | cons ip0 ipr =>
      have h1 := hlb ip0 (by simp)
      have h2 := hub ip0 (by simp)
      simp only [List.length_nil] at h2
      omega
  | cons fv fs ih =>
    rcases ipl with _ | ⟨ip0, ipr⟩
    · rw [residualFields_nil]
      simp only [List.length_cons, unmarshalLoop]
      have hx := ih [] (fi + 1) (by simp) (by simp) (by simp) (by simp)
      rw [residualFields_nil] at hx
      rw [hx]
    · rcases List.pairwise_cons.mp hsort with ⟨hhd, htl⟩
      simp only [residualFields]
      by_cases hf : fi = ip0.field
      · rw [if_pos hf]
        have hget : vkF.get? ip0.pos = some fv := by
          have := hrd ip0 (by simp)
          have h0 : ip0.field - fi = 0 := by omega
          rw [h0] at this
          exact this
        have hub2 : ∀ q ∈ ipr, q.field < (fi + 1) + fs.length := by
          intro q hq
          have := hub q (by simp [hq])
          simp only [List.length_cons] at this
          omega
        have hrd2 : ∀ q ∈ ipr, vkF.get? q.pos = fs.get? (q.field - (fi + 1)) := by
          intro q hq
          have h1 := hrd q (by simp [hq])
          have h2 : q.field - fi = (q.field - (fi + 1)) + 1 := by
            have := hhd q hq
            omega
          rw [h2] at h1
          exact h1
        have hres := ih ipr (fi + 1) htl
          (fun q hq => by have := hhd q hq; omega) hub2 hrd2
        simp only [List.length_cons, unmarshalLoop]
        rw [if_pos hf]
        simp only [hget, hres]
      · rw [if_neg hf]
        have hlb2 : ∀ q ∈ ip0 :: ipr, fi + 1 ≤ q.field := by
          intro q hq
          rcases List.mem_cons.mp hq with rfl | hq2
          · have := hlb q (by simp); omega
          · have h0 := hlb ip0 (by simp)
            have := hhd q hq2
            omega
        have hub2 : ∀ q ∈ ip0 :: ipr, q.field < (fi + 1) + fs.length := by
          intro q hq
          have := hub q hq
          simp only [List.length_cons] at this
          omega
        have hrd2 : ∀ q ∈ ip0 :: ipr, vkF.get? q.pos = fs.get? (q.field - (fi + 1)) := by
          intro q hq
          have h1 := hrd q hq
          have h2 : q.field - fi = (q.field - (fi + 1)) + 1 := by
            have := hlb2 q hq
            omega
          rw [h2] at h1
          exact h1
        have hres := ih (ip0 :: ipr) (fi + 1) hsort hlb2 hub2 hrd2
        simp only [List.length_cons, unmarshalLoop]
        rw [if_neg hf]
        simp only [hres]

theorem marshal_spec (info : indexinfo) (fields : List Value)
    (hv : info.validFor fields.length)
    (henc : ∀ f ∈ fields, f ≠ .auto) :
    ∃ kb vb,
      info.marshalKeyValue fields = .ok (some kb, vb) ∧
      EncodeNils info.nilFirst (keyedSets info.iplist 0 fields
        (List.replicate info.iplist.length Value.null)) = some kb ∧
      EncodeNils info.nilFirst (residualFields info.iplist 0 fields) = some vb := by
  obtain ⟨hne, hsort, hflt, hplt, hnd, hfull⟩ := hv
  have hkenc : ∃ kb, EncodeNils info.nilFirst (keyedSets info.iplist 0 fields
      (List.replicate info.iplist.length Value.null)) = some kb := by
    apply EncodeNils_isSome
    intro v hvmem
    rcases keyedSets_mem _ _ _ _ _ hvmem with h1 | h2
    · rw [List.eq_of_mem_replicate h1]
      simp
    · exact henc v h2
  have hvenc : ∃ vbr, EncodeNils info.nilFirst (residualFields info.iplist 0 fields)
      = some vbr := by
    apply EncodeNils_isSome
    intro v hvmem
    exact henc v (residualFields_mem _ _ _ _ hvmem)
  obtain ⟨kb, hk⟩ := hkenc
  obtain ⟨vbr, hvb⟩ := hvenc
  have hn0 : ¬ info.iplist.length = 0 := by
    intro h
    exact hne (List.length_eq_zero.mp h)
  refine ⟨kb, vbr, ?_, hk, hvb⟩
  unfold indexinfo.marshalKeyValue
  rw [if_neg hn0]
  simp only [marshalLoop_eq, List.nil_append]
  rw [hk]
  cases hres : residualFields info.iplist 0 fields with
  | nil =>
    rw [hres] at hvb
    simp only [EncodeNils, Option.some.injEq] at hvb
    simp [hvb]
  | cons y ys =>
    rw [hres] at hvb
    simp [hvb]

theorem unmarshal_of_marshal (info : indexinfo) (fields : List Value)
    (hv : info.validFor fields.length)
    (kb vb : List Nat)
    (hk : EncodeNils info.nilFirst (keyedSets info.iplist 0 fields
      (List.replicate info.iplist.length Value.null)) = some kb)
    (hvb : EncodeNils info.nilFirst (residualFields info.iplist 0 fields) = some vb) :
    info.unmarshalKeyValue kb vb = .ok fields := by
  obtain ⟨hne, hsort, hflt, hplt, hnd, hfull⟩ := hv
  have hdk := DecodeAll_EncodeNils false info.nilFirst _ kb hk
  have hdv := DecodeAll_EncodeNils false info.nilFirst _ vb hvb
  unfold indexinfo.unmarshalKeyValue
  rw [hdk, hdv]
  show unmarshalLoop (keyedSets info.iplist 0 fields
      (List.replicate info.iplist.length Value.null)) info.iplist
      (residualFields info.iplist 0 fields) 0
      ((keyedSets info.iplist 0 fields
        (List.replicate info.iplist.length Value.null)).length +
       (residualFields info.iplist 0 fields).length) = Except.ok fields
  have hklen : (keyedSets info.iplist 0 fields
      (List.replicate info.iplist.length Value.null)).length = info.iplist.length := by
    rw [keyedSets_length, List.length_replicate]
  have hlb : ∀ ip ∈ info.iplist, 0 ≤ ip.field := fun _ _ => Nat.zero_le _
  have hub : ∀ ip ∈ info.iplist, ip.field < 0 + fields.length := by
    intro ip hip
    simpa using hflt ip hip
  have hrlen := residualFields_length fields info.iplist 0 hsort hlb hub
  have hcount : (keyedSets info.iplist 0 fields
        (List.replicate info.iplist.length Value.null)).length +
      (residualFields info.iplist 0 fields).length = fields.length := by
    rw [hklen]
    omega
  rw [hcount]
  apply unmarshalLoop_replay fields info.iplist 0 _ hsort hlb hub
  intro ip hip
  have := keyedSets_get_mem fields info.iplist 0
    (List.replicate info.iplist.length Value.null) hsort hlb hub hnd
    (fun q hq => by rw [List.length_replicate]; exact hplt q hq) ip hip
  simpa using this

theorem marshal_unmarshal (info : indexinfo) (fields : List Value)
    (hv : info.validFor fields.length)
    (henc : ∀ f ∈ fields, f ≠ .auto) :
    ∃ kb vb,
      info.marshalKeyValue fields = .ok (some kb, vb) ∧
      info.unmarshalKeyValue kb vb = .ok fields ∧
      EncodeNils info.nilFirst (keyedSets info.iplist 0 fields
        (List.replicate info.iplist.length Value.null)) = some kb ∧
      EncodeNils info.nilFirst (residualFields info.iplist 0 fields) = some vb := by
  obtain ⟨kb, vb, hm, hk, hvb⟩ := marshal_spec info fields hv henc
  exact ⟨kb, vb, hm, unmarshal_of_marshal info fields hv kb vb hk hvb, hk, hvb⟩

/-- C1: codec round trip — for every index definition valid for the
record's arity and every record whose field values are encodable (no
`AUTOINCREMENT` marker left in a field), `unmarshalKeyValue` applied to
the `(key, value)` pair produced by `marshalKeyValue` yields exactly the
original field sequence, in original position order. -/
theorem C1_codec_round_trip (info : indexinfo) (fields : List Value)
    (hv : info.validFor fields.length)
    (henc : ∀ f ∈ fields, f ≠ Value.auto) :
    ∃ kb vb,
      info.marshalKeyValue fields = .ok (some kb, vb) ∧
      info.unmarshalKeyValue kb vb = .ok fields := by
  obtain ⟨kb, vb, hm, hu, _, _⟩ := marshal_unmarshal info fields hv henc
  exact ⟨kb, vb, hm, hu⟩

/-- Witness for C1 at a concrete index (field 1 of a two-field record,
nulls first) and a concrete record containing a null. -/
theorem C1_codec_round_trip_witness :
    (indexinfo.mk true [⟨1, 0⟩]).validFor 2 ∧
    (∃ kb vb,
      (indexinfo.mk true [⟨1, 0⟩]).marshalKeyValue [Value.null, Value.uint 4] =
        .ok (some kb, vb) ∧
      (indexinfo.mk true [⟨1, 0⟩]).unmarshalKeyValue kb vb =
        .ok [Value.null, Value.uint 4]) :=
  ⟨by decide, C1_codec_round_trip (indexinfo.mk true [⟨1, 0⟩])
    [Value.null, Value.uint 4] (by decide) (by decide)⟩

/-- Lexicographic strict order on byte strings: the order in which the
underlying store keeps keys within one bucket. -/
def blt : List Nat → List Nat → Bool
  | [], [] => false
  | [], _ :: _ => true
  | _ :: _, [] => false
  | a :: as, b :: bs => if a < b then true else if a = b then blt as bs else false

/-- A bucket entry: a key and a value, both byte strings. -/
abbrev Entry := List Nat × List Nat

/-- All keys of the list are strictly above `k`. -/
def allGt (k : List Nat) (l : List Entry) : Bool :=
  l.all fun e => blt k e.1

/-- Sortedness of a bucket: every entry's key is strictly below all later
keys (the invariant the underlying B-tree maintains). -/
def sortedB : List Entry → Bool
  | [] => true
  | e :: rest => allGt e.1 rest && sortedB rest

/-- Upsert into a sorted bucket, keeping the order; an existing entry with
the same key is replaced (boltdb `Bucket.Put`). -/
def bput (k v : List Nat) : List Entry → List Entry
  | [] => [(k, v)]
  | (k0, v0) :: rest =>
    if blt k k0 then (k, v) :: (k0, v0) :: rest
    else if k = k0 then (k, v) :: rest
    else (k0, v0) :: bput k v rest

/-- Deletion of the entry with the given key, if present
(boltdb `Bucket.Delete` / `Cursor.Delete` at a matched position). -/
def bdelete (k : List Nat) : List Entry → List Entry
  | [] => []
  | (k0, v0) :: rest => if k0 = k then rest else (k0, v0) :: bdelete k rest

/-- Cursor seek: the first entry whose key is not below the search key; in
a sorted bucket this is the smallest key greater than or equal to it
(boltdb `Cursor.Seek`), `none` when the seek runs past the end. -/
def bseek (sk : List Nat) : List Entry → Option Entry
  | [] => none
  | (k0, v0) :: rest => if blt k0 sk then bseek sk rest else some (k0, v0)

/-- Position the seek lands on, counted from the front of the bucket;
equals the bucket length when the seek runs past the end. -/
def seekIdx (sk : List Nat) : List Entry → Nat
  | [] => 0
  | (k0, _) :: rest => if blt k0 sk then seekIdx sk rest + 1 else 0

/-- Lookup of the value stored under a key. -/
def lookupB (k : List Nat) : List Entry → Option (List Nat)
  | [] => none
  | (k0, v0) :: rest => if k0 = k then some v0 else lookupB k rest

theorem blt_irrefl (a : List Nat) : blt a a = false := by
  induction a with
  | nil => rfl
  | cons x xs ih => simp [blt, ih]

theorem blt_trans (a b c : List Nat) (h1 : blt a b = true) (h2 : blt b c = true) :
    blt a c = true := by
  induction a generalizing b c with
  | nil =>
    cases b with
    | nil => simp [blt] at h1
    | cons y ys =>
      cases c with
      | nil => simp [blt] at h2
      | cons z zs => rfl
  | cons x xs ih =>
    cases b with
    | nil => simp [blt] at h1
    | cons y ys =>
      cases c with
      | nil => simp [blt] at h2
      | cons z zs =>
        simp only [blt] at h1 h2 ⊢
        by_cases hxy : x < y
        · by_cases hyz : y < z
          · rw [if_pos (by omega)]
          · simp only [hyz, if_false] at h2
            by_cases hyz2 : y = z
            · rw [if_pos (by omega)]
            · simp [hyz2] at h2
        · simp only [hxy, if_false] at h1
          by_cases hxy2 : x = y
          · simp only [hxy2, if_true] at h1
            by_cases hyz : y < z
            · rw [if_pos (by omega)]
            · simp only [hyz, if_false] at h2
              by_cases hyz2 : y = z
              · simp only [hyz2, if_true] at h2
                rw [if_neg (by omega), if_pos (by omega)]
                exact ih ys zs h1 h2
              · simp [hyz2] at h2
          · simp [hxy2] at h1

theorem blt_total (a b : List Nat) (h1 : blt a b = false) (h2 : blt b a = false) :
    a = b := by
  induction a generalizing b with
  | nil =>
    cases b with
    | nil => rfl
    | cons y ys => simp [blt] at h1
  | cons x xs ih =>
    cases b with
    | nil => simp [blt] at h2
    | cons y ys =>
      simp only [blt] at h1 h2
      by_cases hxy : x < y
      · simp [hxy] at h1
      · by_cases hyx : y < x
        · simp [hyx] at h2
        · have hxy2 : x = y := by omega
          subst hxy2
          simp only [lt_irrefl, if_false, if_pos rfl] at h1 h2
          rw [ih ys h1 h2]

theorem blt_flip (a b : List Nat) (h1 : blt a b = false) (h2 : a ≠ b) :
    blt b a = true := by
  cases h3 : blt b a with
  | true => rfl
  | false => exact absurd (blt_total a b h1 h3) h2

theorem blt_ne (a b : List Nat) (h : blt a b = true) : a ≠ b := by
  intro he
  subst he
  rw [blt_irrefl] at h
  exact Bool.noConfusion h

theorem allGt_mem (k : List Nat) (l : List Entry) (h : allGt k l = true)
    (e : Entry) (he : e ∈ l) : blt k e.1 = true := by
  simpa using (List.all_eq_true.mp h) e he

theorem sortedB_cons (e : Entry) (l : List Entry) (h : sortedB (e :: l) = true) :
    allGt e.1 l = true ∧ sortedB l = true := by
  simpa [sortedB, Bool.and_eq_true] using h

theorem lookupB_mem (k : List Nat) (l : List Entry) (v : List Nat)
    (h : lookupB k l = some v) : (k, v) ∈ l := by
  induction l with
  | nil => simp [lookupB] at h
  | cons e rest ih =>
    rcases e with ⟨k0, v0⟩
    simp only [lookupB] at h
    by_cases hk : k0 = k
    · rw [if_pos hk] at h
      subst hk
      simp only [Option.some.injEq] at h
      subst h
      simp
    · rw [if_neg hk] at h
      exact List.mem_cons_of_mem _ (ih h)

theorem lookupB_none_of_allGt (k : List Nat) (l : List Entry)
    (h : allGt k l = true) : lookupB k l = none := by
  induction l with
  | nil => rfl
  | cons e rest ih =>
    rcases e with ⟨k0, v0⟩
    have h1 : blt k k0 = true := allGt_mem k _ h (k0, v0) (by simp)
    have h2 : allGt k rest = true := by
      simp only [allGt, List.all_cons, Bool.and_eq_true] at h
      exact h.2
    simp only [lookupB]
    rw [if_neg (fun he => blt_ne k k0 h1 he.symm)]
    exact ih h2

theorem bput_mem (k v : List Nat) (l : List Entry) (e : Entry)
    (he : e ∈ bput k v l) : e = (k, v) ∨ e ∈ l := by
  induction l with
  | nil => simpa [bput] using he
  | cons e0 rest ih =>
    rcases e0 with ⟨k0, v0⟩
    simp only [bput] at he
    by_cases h1 : blt k k0
    · rw [if_pos h1] at he
      rcases List.mem_cons.mp he with rfl | h2
      · exact Or.inl rfl
      · exact Or.inr h2
    · rw [if_neg h1] at he
      by_cases h2 : k = k0
      · rw [if_pos h2] at he
        rcases List.mem_cons.mp he with rfl | h3
        · exact Or.inl rfl
        · exact Or.inr (List.mem_cons_of_mem _ h3)
      · rw [if_neg h2] at he
        rcases List.mem_cons.mp he with rfl | h3
        · exact Or.inr (by simp)
        · rcases ih h3 with h4 | h4
          · exact Or.inl h4
          · exact Or.inr (List.mem_cons_of_mem _ h4)

theorem sortedB_bput (k v : List Nat) (l : List Entry) (hs : sortedB l = true) :
    sortedB (bput k v l) = true := by
  induction l with
  | nil => simp [bput, sortedB, allGt]
  | cons e0 rest ih =>
    rcases e0 with ⟨k0, v0⟩
    obtain ⟨hall, hrest⟩ := sortedB_cons _ _ hs
    simp only [bput]
    by_cases h1 : blt k k0
    · rw [if_pos h1]
      simp only [sortedB, Bool.and_eq_true]
      refine ⟨?_, hall, hrest⟩
      simp only [allGt, List.all_cons, Bool.and_eq_true]
      refine ⟨h1, ?_⟩
      apply List.all_eq_true.mpr
      intro e he
      exact blt_trans _ _ _ h1 (allGt_mem k0 rest hall e he)
    · rw [if_neg h1]
      by_cases h2 : k = k0
      · rw [if_pos h2]
        subst h2
        simp only [sortedB, Bool.and_eq_true]
        exact ⟨hall, hrest⟩
      · rw [if_neg h2]
        simp only [sortedB, Bool.and_eq_true]
        constructor
        · apply List.all_eq_true.mpr
          intro e he
          rcases bput_mem k v rest e he with rfl | h3
          · simpa using blt_flip _ _ (by simpa using h1) h2
          · exact allGt_mem k0 rest hall e h3
        · exact ih hrest

theorem lookupB_bput_self (k v : List Nat) (l : List Entry) :
    lookupB k (bput k v l) = some v := by
  induction l with
  | nil => simp [bput, lookupB]
  | cons e0 rest ih =>
    rcases e0 with ⟨k0, v0⟩
    simp only [bput]
    by_cases h1 : blt k k0
    · rw [if_pos h1]
      simp [lookupB]
    · rw [if_neg h1]
      by_cases h2 : k = k0
      · rw [if_pos h2]
        simp [lookupB, h2]
      · rw [if_neg h2]
        simp only [lookupB]
        rw [if_neg (fun he => h2 he.symm)]
        exact ih

theorem lookupB_bput_ne (k v k2 : List Nat) (l : List Entry) (hne : k2 ≠ k) :
    lookupB k2 (bput k v l) = lookupB k2 l := by
  have hkk : ¬ k = k2 := fun he => hne he.symm
  induction l with
  | nil =>
    simp only [bput, lookupB]
    rw [if_neg hkk]
  | cons e0 rest ih =>
    rcases e0 with ⟨k0, v0⟩
    simp only [bput]
    by_cases h1 : blt k k0
    · rw [if_pos h1]
      simp only [lookupB]
      rw [if_neg hkk]
    · rw [if_neg h1]
      by_cases h2 : k = k0
      · rw [if_pos h2]
        subst h2
        simp only [lookupB]
        rw [if_neg hkk, if_neg hkk]
      · rw [if_neg h2]
        simp only [lookupB]
        by_cases h3 : k0 = k2
        · rw [if_pos h3, if_pos h3]
        · rw [if_neg h3, if_neg h3]
          exact ih

theorem bdelete_mem (k : List Nat) (l : List Entry) (e : Entry)
    (he : e ∈ bdelete k l) : e ∈ l := by
  induction l with
  | nil => simp [bdelete] at he
  | cons e0 rest ih =>
    rcases e0 with ⟨k0, v0⟩
    simp only [bdelete] at he
    by_cases h1 : k0 = k
    · rw [if_pos h1] at he
      exact List.mem_cons_of_mem _ he
    · rw [if_neg h1] at he
      rcases List.mem_cons.mp he with rfl | h2
      · simp
      · exact List.mem_cons_of_mem _ (ih h2)

theorem sortedB_bdelete (k : List Nat) (l : List Entry) (hs : sortedB l = true) :
    sortedB (bdelete k l) = true := by
  induction l with
  | nil => simpa [bdelete] using hs
  | cons e0 rest ih =>
    rcases e0 with ⟨k0, v0⟩
    obtain ⟨hall, hrest⟩ := sortedB_cons _ _ hs
    simp only [bdelete]
    by_cases h1 : k0 = k
    · rw [if_pos h1]
      exact hrest
    · rw [if_neg h1]
      simp only [sortedB, Bool.and_eq_true]
      constructor
      · apply List.all_eq_true.mpr
        intro e he
        exact allGt_mem k0 rest hall e (bdelete_mem k rest e he)
      · exact ih hrest

theorem lookupB_bdelete_self (k : List Nat) (l : List Entry)
    (hs : sortedB l = true) : lookupB k (bdelete k l) = none := by
  induction l with
  | nil => rfl
  | cons e0 rest ih =>
    rcases e0 with ⟨k0, v0⟩
    obtain ⟨hall, hrest⟩ := sortedB_cons _ _ hs
    simp only [bdelete]
    by_cases h1 : k0 = k
    · rw [if_pos h1]
      subst h1
      exact lookupB_none_of_allGt _ _ hall
    · rw [if_neg h1]
      simp only [lookupB]
      rw [if_neg h1]
      exact ih hrest

theorem lookupB_bdelete_ne (k k2 : List Nat) (l : List Entry) (hne : k2 ≠ k) :
    lookupB k2 (bdelete k l) = lookupB k2 l := by
  induction l with
  | nil => rfl
  | cons e0 rest ih =>
    rcases e0 with ⟨k0, v0⟩
    simp only [bdelete, lookupB]
    by_cases h1 : k0 = k
    · rw [if_pos h1]
      have h4 : ¬ k0 = k2 := fun he => hne (he.symm.trans h1)
      rw [if_neg h4]
    · rw [if_neg h1]
      simp only [lookupB]
      by_cases h3 : k0 = k2
      · rw [if_pos h3, if_pos h3]
      · rw [if_neg h3, if_neg h3]
        exact ih

theorem bseek_mem (sk : List Nat) (l : List Entry) (e : Entry)
    (he : bseek sk l = some e) : e ∈ l := by
  induction l with
  | nil => simp [bseek] at he
  | cons e0 rest ih =>
    rcases e0 with ⟨k0, v0⟩
    simp only [bseek] at he
    by_cases h1 : blt k0 sk
    · rw [if_pos h1] at he
      exact List.mem_cons_of_mem _ (ih he)
    · rw [if_neg h1] at he
      simp only [Option.some.injEq] at he
      simp [← he]

theorem bseek_exact (sk : List Nat) (l : List Entry) (v : List Nat)
    (hs : sortedB l = true) (h : lookupB sk l = some v) :
    bseek sk l = some (sk, v) := by
  induction l with
  | nil => simp [lookupB] at h
  | cons e0 rest ih =>
    rcases e0 with ⟨k0, v0⟩
    obtain ⟨hall, hrest⟩ := sortedB_cons _ _ hs
    simp only [lookupB] at h
    simp only [bseek]
    by_cases h1 : k0 = sk
    · rw [if_pos h1] at h
      simp only [Option.some.injEq] at h
      rw [if_neg (by rw [h1, blt_irrefl]; simp)]
      rw [h1, h]
    · rw [if_neg h1] at h
      have hmem := lookupB_mem sk rest v h
      have hblt : blt k0 sk = true := allGt_mem k0 rest hall (sk, v) hmem
      rw [if_pos hblt]
      exact ih hrest h

/-- A boltdb bucket: its ordered entries plus its sequence counter (the
state behind `Bucket.NextSequence`). -/
structure Bucket where
  entries : List Entry
  seq : Nat
  deriving DecidableEq, Repr

/-- The whole store: named buckets (`tx.Bucket(name)` works on this). -/
structure Store where
  buckets : List (String × Bucket)
  deriving DecidableEq, Repr

/-- Lookup of a bucket by name (`tx.Bucket`), `none` when absent. -/
def Store.find (s : Store) (nm : String) : Option Bucket :=
  List.lookup nm s.buckets

/-- Replacement of the first bucket with the given name; a no-op when the
name is absent (writes only ever target buckets obtained by `find`). -/
def setAssoc (nm : String) (b : Bucket) : List (String × Bucket) → List (String × Bucket)
  | [] => []
  | (n0, b0) :: rest => if n0 = nm then (nm, b) :: rest else (n0, b0) :: setAssoc nm b rest

/-- Store with one bucket replaced. -/
def Store.set (s : Store) (nm : String) (b : Bucket) : Store :=
  ⟨setAssoc nm b s.buckets⟩

/-- Name of the key space holding an index's entries (`indices(name)`). -/
def indicesName (name : String) : String :=
  name ++ "_idx"

/-- Name of the key space holding a table's schema (`schema(name)`): the
table name itself in the current source. -/
def schemaName (name : String) : String :=
  name

/-- A table handle: the table name and the loaded index definitions.  The
Go `map[string]indexinfo` is modelled as an association list with distinct
names; iteration order is the list order (the Go map's iteration order is
unspecified, and all results proved below are independent of it). -/
structure Table where
  name : String
  indices : List (String × indexinfo)
  deriving DecidableEq, Repr

/-- Map access `t.indices[index]`: a missing key yields Go's zero value
`indexinfo{}`, i.e. an empty slot list. -/
def Table.getInfo (t : Table) (index : String) : indexinfo :=
  match List.lookup index t.indices with
  | some i => i
  | none => ⟨false, []⟩

/-- Resolution of `AUTOINCREMENT` markers in `Put`: each marker is
replaced by the table bucket's next sequence number (`b.NextSequence()`
increments and returns the counter once per marker); all other fields are
untouched. -/
def resolveAuto : List Value → Nat → List Value × Nat
  | [], s => ([], s)
  | f :: fs, s =>
    let p := if f = Value.auto then (Value.uint (s + 1), s + 1) else (f, s)
    let q := resolveAuto fs p.2
    (p.1 :: q.1, q.2)

/-- The index-maintenance loop of `Put`: for each declared index, requires
the index bucket to exist (else `NO_TABLE`), marshals the record under the
index definition, skips the index when the key is `nil`, and otherwise
upserts the `(key, value)` pair into the index bucket. -/
def putIndices (fields : List Value) : List (String × indexinfo) → Store → Except Err Store
  | [], store => .ok store
  | (index, info) :: rest, store =>
    match store.find (indicesName index) with
    | none => .error .noTable
    | some ib =>
      match info.marshalKeyValue fields with
      | .error e => .error e
      | .ok (none, _) => putIndices fields rest store
      | .ok (some kb, vb) =>
        putIndices fields rest
          (store.set (indicesName index) { ib with entries := bput kb vb ib.entries })

/-- Mirror of `Table.Put`: resolves `AUTOINCREMENT` markers against the
table bucket's sequence, then updates every declared index inside one
transaction.  The returned `Nat` mirrors the Go `var key uint64`, which is
declared, shadowed by each loop iteration's `key, val, err := …`, and
returned unchanged; an error return models the transaction rolling back
(no store change).  The record argument is the record's field list
(`rec.ToFieldList()`). -/
def Table.Put (t : Table) (fields : List Value) (store : Store) :
    Nat × Except Err Store :=
  let key : Nat := 0
  (key,
    match store.find t.name with
    | none => .error .noTable
    | some b =>
      let r := resolveAuto fields b.seq
      putIndices r.1 t.indices (store.set t.name { b with seq := r.2 }))

/-- Mirror of `Table.Get`: seeks the index's key space for the marshalled
key and returns `NO_KEY` unless the found key is byte-equal; on an exact
match the entry is decoded and returned (the result record's new field
list).  A `nil` marshalled key (zero-field index, or index name unknown)
also yields `NO_KEY`.  `bytes.Equal(sk, k)` with `k = nil` is false here
because a marshalled key of a nonempty slot list is nonempty. -/
def Table.Get (t : Table) (index : String) (keyFields : List Value) (store : Store) :
    Except Err (List Value) :=
  match store.find (indicesName index) with
  | none => .error .noIndex
  | some b =>
    let info := t.getInfo index
    match info.marshalKeyValue keyFields with
    | .error e => .error e
    | .ok (none, _) => .error .noKey
    | .ok (some sk, _) =>
      match bseek sk b.entries with
      | none => .error .noKey
      | some (rk, rv) =>
        if rk = sk then
          match info.unmarshalKeyValue rk rv with
          | .error e => .error e
          | .ok fields => .ok fields
        else .error .noKey

/-- The direct key-assembly loop of `Delete` for sibling indices:
`vkey[ip.pos] = fields[ip.field]` over the slot list, starting from a
buffer of Go nil-interface slots (encoded as nulls).  `none` marks inputs
on which the Go code would panic (`fields[ip.field]` out of range);
`List.set` ignores an out-of-range `pos`, which the validity hypotheses
rule out. -/
def assembleGo (fields : List Value) : List indexpos → List Value → Option (List Value)
  | [], acc => some acc
  | ip :: rest, acc =>
    match fields.get? ip.field with
    | none => none
    | some fv => assembleGo fields rest (acc.set ip.pos fv)

/-- Sibling-index cleanup loop of `Delete`: for every index other than the
one deleted through, re-derives the composite key from the decoded record
— with the raw `typedbuffer.Encode`, not the null-ordering-aware
`EncodeNils` used when the entry was written — and deletes that key.
A missing sibling bucket is skipped. -/
def deleteOthers (through : String) (fields : List Value) :
    List (String × indexinfo) → Store → Except Err Store
  | [], store => .ok store
  | (i, info) :: rest, store =>
    if i = through then deleteOthers through fields rest store
    else
      match store.find (indicesName i) with
      | none => deleteOthers through fields rest store
      | some b =>
        match assembleGo fields info.iplist
          (List.replicate info.iplist.length Value.null) with
        | none => .error .panicOOB
        | some vkey =>
          match Encode vkey with
          | none => .error .encodeErr
          | some dkey =>
            deleteOthers through fields rest
              (store.set (indicesName i) { b with entries := bdelete dkey b.entries })

/-- Mirror of `Table.Delete`: marshals the key record through the chosen
index (`NO_KEY` when the marshalled key is `nil`), seeks that index's key
space, and only when the found key is byte-equal deletes the entry at the
cursor, decodes the full record from it and removes the corresponding
entries of every other index; on a seek miss it deletes nothing and
returns without error.  An error return models the transaction rolling
back. -/
def Table.Delete (t : Table) (index : String) (keyFields : List Value)
    (store : Store) : Except Err Store :=
  match store.find (indicesName index) with
  | none => .error .noIndex
  | some b =>
    let info := t.getInfo index
    match info.marshalKeyValue keyFields with
    | .error e => .error e
    | .ok (none, _) => .error .noKey
    | .ok (some sk, _) =>
      match bseek sk b.entries with
      | none => .ok store
      | some (k, v) =>
        if k = sk then
          let store1 := store.set (indicesName index)
            { b with entries := bdelete k b.entries }
          match info.unmarshalKeyValue k v with
          | .error e => .error e
          | .ok fields => deleteOthers index fields t.indices store1
        else .ok store

/-- The iteration loop of `Scan` over the entries the cursor will visit,
in visiting order.  Each entry is decoded; on a decode error the loop
returns that error immediately — without invoking the callback — matching
the early `return err` in the source.  Otherwise `res` is filled and the
callback invoked with a nil error; a `false` callback result stops the
iteration.  The first component records the callback invocations (the
field list and error argument of each call), the second is `Scan`'s
error result. -/
def scanLoop (info : indexinfo) (cb : List Value → Option Err → Bool) :
    List Entry → List (List Value × Option Err) × Except Err Unit
  | [] => ([], .ok ())
  | (k, v) :: rest =>
    match info.unmarshalKeyValue k v with
    | .error e => ([], .error e)
    | .ok fields =>
      if cb fields none then
        let r := scanLoop info cb rest
        ((fields, none) :: r.1, r.2)
      else ([(fields, none)], .ok ())

/-- Entries visited by an ascending scan from a start key: the cursor
seeks the smallest key ≥ the start key and iterates forward; when the
seek runs past the end (`k == nil`), the source falls into the
`c.First()` branch and restarts from the first entry. -/
def scanIterAsc (es : List Entry) (sk : List Nat) : List Entry :=
  let p := seekIdx sk es
  if p < es.length then es.drop p else es

/-- Entries visited by a descending scan from a start key: the cursor
seeks, and when the found key is not byte-equal steps back once
(`c.Prev()`); if that runs off the front (`k == nil`), the source falls
into the `c.Last()` branch and restarts from the last entry, visiting
the whole bucket in reverse. -/
def scanIterDesc (es : List Entry) (sk : List Nat) : List Entry :=
  let p := seekIdx sk es
  match es.get? p with
  | some e =>
    if e.1 = sk then (es.take (p + 1)).reverse
    else if p > 0 then (es.take p).reverse
    else es.reverse
  | none => if p > 0 then (es.take p).reverse else es.reverse

/-- Mirror of `Table.Scan`: positions a cursor from the optional start
record (no start, or a start marshalling to a `nil` key, begins at the
first entry ascending / last entry descending), then iterates, decoding
each entry and invoking the callback.  Returns the recorded callback
invocations together with the error result of the scan. -/
def Table.Scan (t : Table) (index : String) (ascending : Bool)
    (start : Option (List Value)) (cb : List Value → Option Err → Bool)
    (store : Store) : List (List Value × Option Err) × Except Err Unit :=
  match store.find (indicesName index) with
  | none => ([], .error .noIndex)
  | some b =>
    let info := t.getInfo index
    match start with
    | none => scanLoop info cb (if ascending then b.entries else b.entries.reverse)
    | some sf =>
      match info.marshalKeyValue sf with
      | .error e => ([], .error e)
      | .ok (none, _) =>
        scanLoop info cb (if ascending then b.entries else b.entries.reverse)
      | .ok (some sk, _) =>
        scanLoop info cb
          (if ascending then scanIterAsc b.entries sk else scanIterDesc b.entries sk)

/-- Mirror of `Table.ForEach`: iterates the table bucket's raw entries
when the index name is empty, else the named index bucket's; the result
is the entry sequence handed to the callback. -/
def Table.ForEach (t : Table) (index : String) (store : Store) :
    Except Err (List Entry) :=
  let bname := if index.length > 0 then indicesName index else t.name
  match store.find bname with
  | none => .error .noIndex
  | some b => .ok b.entries

/-- Decoding of one persisted schema entry: `typedbuffer.Decode` reads the
`nilFirst` flag (the Go code type-asserts it to `bool`; a well-formed
non-bool first value would panic there, conflated here with a failed
entry), then `DecodeUintArray` reads the field-position list. -/
def decodeSchemaEntry (v : List Nat) : Option (Bool × List Nat) :=
  match decOne v with
  | some (.bool nf, rest) =>
    match decNat rest with
    | none => none
    | some (n, r1) =>
      match decNats n r1 with
      | some (fields, []) => some (nf, fields)
      | _ => none
  | _ => none

/-- Byte string of a name (schema bucket keys are index names). -/
def bytesOfString (s : String) : List Nat :=
  s.data.map Char.toNat

/-- Name of a byte string key (`string(k)` in the source). -/
def stringOfBytes (b : List Nat) : String :=
  ⟨b.map Char.ofNat⟩

/-- The schema-loading `ForEach` body of `GetTable`: each entry is decoded
into an index definition; on the first undecodable entry the closure
returns `SCHEMA_CORRUPTED`, which stops boltdb's `ForEach` — but the
source discards `b.ForEach(...)`'s return value, so the error vanishes
and the indices read so far are kept. -/
def collectIndices : List Entry → List (String × indexinfo)
  | [] => []
  | (k, v) :: rest =>
    match decodeSchemaEntry v with
    | none => []
    | some (nf, fields) =>
      (stringOfBytes k, ⟨nf, makeIndexPos fields⟩) :: collectIndices rest

/-- Mirror of `DataStore.GetTable`: `NO_TABLE` when the schema bucket is
absent; otherwise loads the index definitions.  Because the `ForEach`
return value is discarded in the source, a `SCHEMA_CORRUPTED` decode
failure never surfaces: the table is returned with the failed index (and
any after it) silently missing. -/
def DataStore.GetTable (store : Store) (name : String) : Except Err Table :=
  match store.find (schemaName name) with
  | none => .error .noTable
  | some b => .ok ⟨name, collectIndices b.entries⟩

theorem find_set_self (s : Store) (nm : String) (b b0 : Bucket)
    (h : s.find nm = some b0) : (s.set nm b).find nm = some b := by
  rcases s with ⟨l⟩
  simp only [Store.find, Store.set] at h ⊢
  induction l with
  | nil => simp [List.lookup] at h
  | cons e rest ih =>
    rcases e with ⟨n0, b1⟩
    by_cases h1 : n0 = nm
    · subst h1
      simp [setAssoc, List.lookup]
    · simp only [setAssoc, if_neg h1]
      have hb : (nm == n0) = false := beq_eq_false_iff_ne.mpr (fun he => h1 he.symm)
      simp only [List.lookup, hb] at h ⊢
      exact ih h

theorem find_set_ne (s : Store) (nm nm2 : String) (b : Bucket)
    (h : nm2 ≠ nm) : (s.set nm b).find nm2 = s.find nm2 := by
  rcases s with ⟨l⟩
  simp only [Store.find, Store.set]
  induction l with
  | nil => simp [setAssoc]
  | cons e rest ih =>
    rcases e with ⟨n0, b1⟩
    by_cases h1 : n0 = nm
    · subst h1
      simp only [setAssoc, if_pos rfl]
      have hb : (nm2 == n0) = false := beq_eq_false_iff_ne.mpr h
      simp only [List.lookup, hb]
    · simp only [setAssoc, if_neg h1]
      cases hb : nm2 == n0 with
      | true => simp only [List.lookup, hb]
      | false =>
        simp only [List.lookup, hb]
        exact ih

theorem lookup_eq_of_mem_nodup {β : Type} (l : List (String × β)) (k : String)
    (x : β) (hnd : (l.map Prod.fst).Nodup) (hmem : (k, x) ∈ l) :
    List.lookup k l = some x := by
  induction l with
  | nil => simp at hmem
  | cons e rest ih =>
    rcases e with ⟨k0, x0⟩
    simp only [List.map_cons, List.nodup_cons] at hnd
    rcases List.mem_cons.mp hmem with he | hm
    · injection he with h1 h2
      subst h1
      subst h2
      simp [List.lookup]
    · have hk : (k == k0) = false := by
        apply beq_eq_false_iff_ne.mpr
        intro he
        subst he
        exact hnd.1 (by simpa using List.mem_map_of_mem Prod.fst hm)
      simp only [List.lookup, hk]
      exact ih hnd.2 hm

theorem indicesName_inj (a b : String) (h : indicesName a = indicesName b) :
    a = b := by
  simp only [indicesName] at h
  have hd : a.data ++ "_idx".data = b.data ++ "_idx".data := by
    have h2 := congrArg String.data h
    simpa using h2
  have h3 : a.data = b.data := List.append_cancel_right hd
  cases a
  cases b
  exact congrArg String.mk h3

theorem resolveAuto_no_auto (fs : List Value) (s : Nat) :
    ∀ f ∈ (resolveAuto fs s).1, f ≠ .auto := by
  induction fs generalizing s with
  | nil => simp [resolveAuto]
  | cons f fs ih =>
    intro g hg
    simp only [resolveAuto] at hg
    rcases List.mem_cons.mp hg with rfl | hm
    · by_cases hf : f = Value.auto
      · simp [hf]
      · simp [hf]
    · exact ih _ g hm

theorem resolveAuto_id (fs : List Value) (s : Nat)
    (h : ∀ f ∈ fs, f ≠ .auto) : resolveAuto fs s = (fs, s) := by
  induction fs generalizing s with
  | nil => rfl
  | cons f fs ih =>
    have hf : f ≠ Value.auto := h f (by simp)
    simp only [resolveAuto, if_neg hf]
    rw [ih s (fun g hg => h g (by simp [hg]))]

theorem putIndices_spec (idxs : List (String × indexinfo)) (store : Store)
    (fields : List Value)
    (hnd : (idxs.map Prod.fst).Nodup)
    (hv : ∀ p ∈ idxs, (p.2).validFor fields.length)
    (hb : ∀ p ∈ idxs, ∃ bk, store.find (indicesName p.1) = some bk)
    (henc : ∀ f ∈ fields, f ≠ .auto) :
    ∃ s1, putIndices fields idxs store = .ok s1 ∧
      (∀ p ∈ idxs, ∃ bk kb vb,
        store.find (indicesName p.1) = some bk ∧
        (p.2).marshalKeyValue fields = .ok (some kb, vb) ∧
        s1.find (indicesName p.1) = some { bk with entries := bput kb vb bk.entries }) ∧
      (∀ nm, (∀ p ∈ idxs, nm ≠ indicesName p.1) → s1.find nm = store.find nm) := by
  induction idxs generalizing store with
  | nil =>
    refine ⟨store, rfl, ?_, ?_⟩
    · intro p hp
      simp at hp
    · intro nm _
      rfl
  | cons hd rest ih =>
    rcases hd with ⟨n, info⟩
    simp only [List.map_cons, List.nodup_cons] at hnd
    obtain ⟨bk, hbk⟩ := hb (n, info) (by simp)
    obtain ⟨kb, vb, hm, hkenc, hvenc⟩ :=
      marshal_spec info fields (hv (n, info) (by simp)) henc
    have hnames : ∀ p ∈ rest, p.1 ≠ n := by
      intro p hp he
      exact hnd.1 (he ▸ List.mem_map_of_mem Prod.fst hp)
    have hinames : ∀ p ∈ rest, indicesName p.1 ≠ indicesName n := by
      intro p hp he
      exact hnames p hp (indicesName_inj _ _ he)
    obtain ⟨s1, hput, hprop, hframe⟩ := ih
      (store.set (indicesName n) { bk with entries := bput kb vb bk.entries })
      hnd.2
      (fun p hp => hv p (by simp [hp]))
      (fun p hp => by
        rw [find_set_ne _ _ _ _ (hinames p hp)]
        exact hb p (by simp [hp]))
    refine ⟨s1, ?_, ?_, ?_⟩
    · simp only [putIndices, hbk, hm]
      exact hput
    · intro p hp
      rcases List.mem_cons.mp hp with rfl | hp2
      · refine ⟨bk, kb, vb, hbk, hm, ?_⟩
        rw [hframe (indicesName n) (fun q hq => (hinames q hq).symm)]
        exact find_set_self _ _ _ _ hbk
      · obtain ⟨bk2, kb2, vb2, hfind2, hm2, hres2⟩ := hprop p hp2
        refine ⟨bk2, kb2, vb2, ?_, hm2, hres2⟩
        rw [find_set_ne _ _ _ _ (hinames p hp2)] at hfind2
        exact hfind2
    · intro nm hnm
      rw [hframe nm (fun q hq => hnm q (by simp [hq]))]
      exact find_set_ne _ _ _ _ (hnm (n, info) (by simp))

theorem resolveAuto_length (fs : List Value) (s : Nat) :
    (resolveAuto fs s).1.length = fs.length := by
  induction fs generalizing s with
  | nil => rfl
  | cons f fs ih => simp [resolveAuto, ih]

/-- Entries of a named bucket, empty when the bucket is absent. -/
def Store.entriesAt (s : Store) (nm : String) : List Entry :=
  match s.find nm with
  | some b => b.entries
  | none => []

theorem Put_spec (t : Table) (fields : List Value) (store : Store) (b : Bucket)
    (htb : store.find t.name = some b)
    (hnd : (t.indices.map Prod.fst).Nodup)
    (hnc : ∀ p ∈ t.indices, indicesName p.1 ≠ t.name)
    (hv : ∀ p ∈ t.indices, (p.2).validFor fields.length)
    (hb : ∀ p ∈ t.indices, ∃ bk, store.find (indicesName p.1) = some bk) :
    ∃ s1, t.Put fields store = (0, .ok s1) ∧
      (∀ p ∈ t.indices, ∃ bk kb vb,
        store.find (indicesName p.1) = some bk ∧
        (p.2).marshalKeyValue (resolveAuto fields b.seq).1 = .ok (some kb, vb) ∧
        s1.find (indicesName p.1) = some { bk with entries := bput kb vb bk.entries }) ∧
      (∀ nm, nm ≠ t.name → (∀ p ∈ t.indices, nm ≠ indicesName p.1) →
        s1.find nm = store.find nm) := by
  have hlen : (resolveAuto fields b.seq).1.length = fields.length :=
    resolveAuto_length fields b.seq
  obtain ⟨s1, hput, hprop, hframe⟩ := putIndices_spec t.indices
    (store.set t.name { b with seq := (resolveAuto fields b.seq).2 })
    (resolveAuto fields b.seq).1
    hnd
    (fun p hp => hlen ▸ hv p hp)
    (fun p hp => by
      rw [find_set_ne _ _ _ _ (hnc p hp)]
      exact hb p hp)
    (resolveAuto_no_auto fields b.seq)
  refine ⟨s1, ?_, ?_, ?_⟩
  · simp only [Table.Put, htb]
    rw [hput]
  · intro p hp
    obtain ⟨bk, kb, vb, hfind, hm, hres⟩ := hprop p hp
    rw [find_set_ne _ _ _ _ (hnc p hp)] at hfind
    exact ⟨bk, kb, vb, hfind, hm, hres⟩
  · intro nm hn1 hn2
    rw [hframe nm hn2]
    exact find_set_ne _ _ _ _ hn1

theorem assembleGo_some (fields : List Value) (ipl : List indexpos)
    (acc : List Value) (hf : ∀ ip ∈ ipl, ip.field < fields.length) :
    ∃ K, assembleGo fields ipl acc = some K := by
  induction ipl generalizing acc with
  | nil => exact ⟨acc, rfl⟩
  | cons ip rest ih =>
    cases hget : fields.get? ip.field with
    | none =>
      rw [List.get?_eq_none] at hget
      have := hf ip (by simp)
      omega
    | some fv =>
      obtain ⟨K, hK⟩ := ih (acc.set ip.pos fv) (fun q hq => hf q (by simp [hq]))
      exact ⟨K, by simp only [assembleGo, hget]; exact hK⟩

theorem assembleGo_length (fields : List Value) (ipl : List indexpos)
    (acc : List Value) (K : List Value) (h : assembleGo fields ipl acc = some K) :
    K.length = acc.length := by
  induction ipl generalizing acc with
  | nil =>
    simp only [assembleGo, Option.some.injEq] at h
    rw [← h]
  | cons ip rest ih =>
    simp only [assembleGo] at h
    cases hget : fields.get? ip.field with
    | none => rw [hget] at h; exact Option.noConfusion h
    | some fv =>
      rw [hget] at h
      rw [ih _ h, List.length_set]

theorem assembleGo_get_notMem (fields : List Value) (ipl : List indexpos)
    (acc : List Value) (K : List Value) (h : assembleGo fields ipl acc = some K)
    (p : Nat) (hp : p ∉ ipl.map indexpos.pos) : K.get? p = acc.get? p := by
  induction ipl generalizing acc with
  | nil =>
    simp only [assembleGo, Option.some.injEq] at h
    rw [← h]
  | cons ip rest ih =>
    simp only [List.map_cons, List.mem_cons, not_or] at hp
    simp only [assembleGo] at h
    cases hget : fields.get? ip.field with
    | none => rw [hget] at h; exact Option.noConfusion h
    | some fv =>
      rw [hget] at h
      rw [ih _ h hp.2, setGet_ne _ _ _ _ (fun he => hp.1 he.symm)]

theorem assembleGo_get_mem (fields : List Value) (ipl : List indexpos)
    (acc : List Value) (K : List Value) (h : assembleGo fields ipl acc = some K)
    (hnd : (ipl.map indexpos.pos).Nodup)
    (hpl : ∀ ip ∈ ipl, ip.pos < acc.length) :
    ∀ ip ∈ ipl, K.get? ip.pos = fields.get? ip.field := by
  induction ipl generalizing acc with
  | nil => intro ip hip; simp at hip
  | cons ip0 rest ih =>
    simp only [List.map_cons, List.nodup_cons] at hnd
    simp only [assembleGo] at h
    intro ip hip
    cases hget : fields.get? ip0.field with
    | none => rw [hget] at h; exact Option.noConfusion h
    | some fv =>
      rw [hget] at h
      rcases List.mem_cons.mp hip with rfl | hm
      · rw [assembleGo_get_notMem _ _ _ _ h _ hnd.1,
          setGet_self _ _ _ (hpl ip (by simp)), hget]
      · exact ih _ h hnd.2
          (fun q hq => by rw [List.length_set]; exact hpl q (by simp [hq]))
          ip hm

theorem deleteKey_spec (info : indexinfo) (fields : List Value)
    (hv : info.validFor fields.length)
    (hna : ∀ f ∈ fields, f ≠ .auto)
    (hnn : ∀ ip ∈ info.iplist, ∀ fv, fields.get? ip.field = some fv → fv ≠ .null)
    (kb vb : List Nat) (hm : info.marshalKeyValue fields = .ok (some kb, vb)) :
    ∃ K, assembleGo fields info.iplist
        (List.replicate info.iplist.length Value.null) = some K ∧
      Encode K = some kb := by
  obtain ⟨hne, hsort, hflt, hplt, hnd, hfull⟩ := hv
  obtain ⟨kb2, vb2, hm2, hkenc, hvenc⟩ :=
    marshal_spec info fields ⟨hne, hsort, hflt, hplt, hnd, hfull⟩ hna
  rw [hm] at hm2
  injection hm2 with hm3
  injection hm3 with hm4 hm5
  injection hm4 with hm6
  subst hm6
  subst hm5
  obtain ⟨K, hK⟩ := assembleGo_some fields info.iplist
    (List.replicate info.iplist.length Value.null) hflt
  have hacc : ∀ ip ∈ info.iplist,
      ip.pos < (List.replicate info.iplist.length Value.null).length := by
    intro q hq
    rw [List.length_replicate]
    exact hplt q hq
  have hKeq : K = keyedSets info.iplist 0 fields
      (List.replicate info.iplist.length Value.null) := by
    apply List.ext_get?
    intro p
    by_cases hp : p ∈ info.iplist.map indexpos.pos
    · obtain ⟨ip, hip, rfl⟩ := List.mem_map.mp hp
      rw [assembleGo_get_mem fields _ _ K hK hnd hacc ip hip]
      rw [keyedSets_get_mem fields info.iplist 0 _ hsort
        (fun q _ => Nat.zero_le _)
        (fun q hq => by simpa using hflt q hq) hnd hacc ip hip]
      rw [Nat.sub_zero]
    · rw [assembleGo_get_notMem fields _ _ K hK p hp,
        keyedSets_get_notMem fields info.iplist 0 _ p hp]
  have hKnn : ∀ v ∈ K, v ≠ Value.null := by
    intro v hvm
    obtain ⟨p, hp⟩ := List.mem_iff_get?.mp hvm
    have hplen : p < K.length := by
      by_contra hc
      rw [List.get?_eq_none.mpr (by omega)] at hp
      exact Option.noConfusion hp
    have hKlen : K.length = info.iplist.length := by
      rw [assembleGo_length fields _ _ K hK, List.length_replicate]
    have hpmem : p ∈ info.iplist.map indexpos.pos := hfull p (by omega)
    obtain ⟨ip, hip, hpos⟩ := List.mem_map.mp hpmem
    have := assembleGo_get_mem fields _ _ K hK hnd hacc ip hip
    rw [hpos, hp] at this
    exact hnn ip hip v this.symm
  have hmode : Encode K = EncodeNils info.nilFirst K :=
    EncodeNils_mode_indep false info.nilFirst K hKnn
  refine ⟨K, hK, ?_⟩
  rw [hmode, hKeq]
  exact hkenc

theorem marshal_of_empty (info : indexinfo) (fields : List Value)
    (h : info.iplist = []) : info.marshalKeyValue fields = .ok (none, []) := by
  unfold indexinfo.marshalKeyValue
  rw [if_pos (by rw [h]; rfl)]

theorem putIndices_spec_mixed (idxs : List (String × indexinfo)) (store : Store)
    (fields : List Value)
    (hnd : (idxs.map Prod.fst).Nodup)
    (hv : ∀ p ∈ idxs, (p.2).iplist = [] ∨ (p.2).validFor fields.length)
    (hb : ∀ p ∈ idxs, ∃ bk, store.find (indicesName p.1) = some bk)
    (henc : ∀ f ∈ fields, f ≠ .auto) :
    ∃ s1, putIndices fields idxs store = .ok s1 ∧
      (∀ p ∈ idxs, (p.2).iplist ≠ [] → ∃ bk kb vb,
        store.find (indicesName p.1) = some bk ∧
        (p.2).marshalKeyValue fields = .ok (some kb, vb) ∧
        s1.find (indicesName p.1) = some { bk with entries := bput kb vb bk.entries }) ∧
      (∀ nm, (∀ p ∈ idxs, (p.2).iplist ≠ [] → nm ≠ indicesName p.1) →
        s1.find nm = store.find nm) := by
  induction idxs generalizing store with
  | nil =>
    refine ⟨store, rfl, ?_, ?_⟩
    · intro p hp
      simp at hp
    · intro nm _
      rfl
  | cons hd rest ih =>
    rcases hd with ⟨n, info⟩
    simp only [List.map_cons, List.nodup_cons] at hnd
    obtain ⟨bk, hbk⟩ := hb (n, info) (by simp)
    by_cases hi : info.iplist = []
    · have hmz : info.marshalKeyValue fields = .ok (none, []) :=
        marshal_of_empty info fields hi
      obtain ⟨s1, hput, hprop, hframe⟩ := ih store hnd.2
        (fun p hp => hv p (by simp [hp]))
        (fun p hp => hb p (by simp [hp]))
      refine ⟨s1, ?_, ?_, ?_⟩
      · simp only [putIndices, hbk, hmz]
        exact hput
      · intro p hp hpne
        rcases List.mem_cons.mp hp with rfl | hp2
        · exact absurd hi hpne
        · exact hprop p hp2 hpne
      · intro nm hnm
        exact hframe nm (fun q hq hqne => hnm q (by simp [hq]) hqne)
    · have hval : info.validFor fields.length := by
        rcases hv (n, info) (by simp) with he | hval
        · exact absurd he hi
        · exact hval
      obtain ⟨kb, vb, hm, _, _⟩ := marshal_spec info fields hval henc
      have hinames : ∀ p ∈ rest, indicesName p.1 ≠ indicesName n := by
        intro p hp he
        exact hnd.1 ((indicesName_inj _ _ he) ▸ List.mem_map_of_mem Prod.fst hp)
      obtain ⟨s1, hput, hprop, hframe⟩ := ih
        (store.set (indicesName n) { bk with entries := bput kb vb bk.entries })
        hnd.2
        (fun p hp => hv p (by simp [hp]))
        (fun p hp => by
          rw [find_set_ne _ _ _ _ (hinames p hp)]
          exact hb p (by simp [hp]))
      refine ⟨s1, ?_, ?_, ?_⟩
      · simp only [putIndices, hbk, hm]
        exact hput
      · intro p hp hpne
        rcases List.mem_cons.mp hp with rfl | hp2
        · refine ⟨bk, kb, vb, hbk, hm, ?_⟩
          rw [hframe (indicesName n) (fun q hq _ => (hinames q hq).symm)]
          exact find_set_self _ _ _ _ hbk
        · obtain ⟨bk2, kb2, vb2, hfind2, hm2, hres2⟩ := hprop p hp2 hpne
          rw [find_set_ne _ _ _ _ (hinames p hp2)] at hfind2
          exact ⟨bk2, kb2, vb2, hfind2, hm2, hres2⟩
      · intro nm hnm
        rw [hframe nm (fun q hq hqne => hnm q (by simp [hq]) hqne)]
        exact find_set_ne _ _ _ _ (hnm (n, info) (by simp) hi)

theorem Put_spec_mixed (t : Table) (fields : List Value) (store : Store)
    (b : Bucket)
    (htb : store.find t.name = some b)
    (hnd : (t.indices.map Prod.fst).Nodup)
    (hnc : ∀ p ∈ t.indices, indicesName p.1 ≠ t.name)
    (hv : ∀ p ∈ t.indices, (p.2).iplist = [] ∨ (p.2).validFor fields.length)
    (hb : ∀ p ∈ t.indices, ∃ bk, store.find (indicesName p.1) = some bk) :
    ∃ s1, t.Put fields store = (0, .ok s1) ∧
      (∀ p ∈ t.indices, (p.2).iplist ≠ [] → ∃ bk kb vb,
        store.find (indicesName p.1) = some bk ∧
        (p.2).marshalKeyValue (resolveAuto fields b.seq).1 = .ok (some kb, vb) ∧
        s1.find (indicesName p.1) = some { bk with entries := bput kb vb bk.entries }) ∧
      (∀ nm, nm ≠ t.name → (∀ p ∈ t.indices, (p.2).iplist ≠ [] → nm ≠ indicesName p.1) →
        s1.find nm = store.find nm) := by
  have hlen : (resolveAuto fields b.seq).1.length = fields.length :=
    resolveAuto_length fields b.seq
  obtain ⟨s1, hput, hprop, hframe⟩ := putIndices_spec_mixed t.indices
    (store.set t.name { b with seq := (resolveAuto fields b.seq).2 })
    (resolveAuto fields b.seq).1
    hnd
    (fun p hp => hlen ▸ hv p hp)
    (fun p hp => by
      rw [find_set_ne _ _ _ _ (hnc p hp)]
      exact hb p hp)
    (resolveAuto_no_auto fields b.seq)
  refine ⟨s1, ?_, ?_, ?_⟩
  · simp only [Table.Put, htb]
    rw [hput]
  · intro p hp hpne
    obtain ⟨bk, kb, vb, hfind, hm, hres⟩ := hprop p hp hpne
    rw [find_set_ne _ _ _ _ (hnc p hp)] at hfind
    exact ⟨bk, kb, vb, hfind, hm, hres⟩
  · intro nm hn1 hn2
    rw [hframe nm hn2]
    exact find_set_ne _ _ _ _ hn1

theorem deleteOthers_spec_mixed (j : String) (fields : List Value)
    (idxs : List (String × indexinfo)) (store : Store)
    (hnd : (idxs.map Prod.fst).Nodup)
    (hv : ∀ p ∈ idxs, (p.2).iplist = [] ∨ (p.2).validFor fields.length)
    (hna : ∀ f ∈ fields, f ≠ .auto)
    (hnn : ∀ p ∈ idxs, ∀ ip ∈ (p.2).iplist, ∀ fv,
      fields.get? ip.field = some fv → fv ≠ .null)
    (hbk : ∀ p ∈ idxs, p.1 ≠ j → ∃ bk, store.find (indicesName p.1) = some bk) :
    ∃ s2, deleteOthers j fields idxs store = .ok s2 ∧
      (∀ p ∈ idxs, p.1 ≠ j → (p.2).iplist ≠ [] → ∀ kb vb,
        (p.2).marshalKeyValue fields = .ok (some kb, vb) →
        ∃ bk, store.find (indicesName p.1) = some bk ∧
          s2.find (indicesName p.1) = some { bk with entries := bdelete kb bk.entries }) ∧
      (∀ nm, (∀ p ∈ idxs, p.1 = j ∨ nm ≠ indicesName p.1) →
        s2.find nm = store.find nm) := by
  induction idxs generalizing store with
  | nil =>
    refine ⟨store, rfl, ?_, fun _ _ => rfl⟩
    intro p hp
    simp at hp
  | cons hd rest ih =>
    rcases hd with ⟨i, info⟩
    simp only [List.map_cons, List.nodup_cons] at hnd
    by_cases hij : i = j
    · obtain ⟨s2, hdel, hprop, hframe⟩ := ih store hnd.2
        (fun p hp => hv p (by simp [hp]))
        (fun p hp => hnn p (by simp [hp]))
        (fun p hp hpj => hbk p (by simp [hp]) hpj)
      refine ⟨s2, ?_, ?_, ?_⟩
      · simp only [deleteOthers, if_pos hij]
        exact hdel
      · intro p hp hpj hpne kb vb hm
        rcases List.mem_cons.mp hp with rfl | hp2
        · exact absurd hij hpj
        · exact hprop p hp2 hpj hpne kb vb hm
      · intro nm hnm
        exact hframe nm (fun q hq => hnm q (by simp [hq]))
    · obtain ⟨bk, hbk0⟩ := hbk (i, info) (by simp) hij
      have hinames : ∀ p ∈ rest, indicesName p.1 ≠ indicesName i := by
        intro p hp he
        exact hnd.1 ((indicesName_inj _ _ he) ▸ List.mem_map_of_mem Prod.fst hp)
      by_cases hie : info.iplist = []
      · have hK : assembleGo fields info.iplist
            (List.replicate info.iplist.length Value.null) = some [] := by
          rw [hie]
          rfl
        have hKe : Encode [] = some [] := rfl
        obtain ⟨s2, hdel, hprop, hframe⟩ := ih
          (store.set (indicesName i) { bk with entries := bdelete [] bk.entries })
          hnd.2
          (fun p hp => hv p (by simp [hp]))
          (fun p hp => hnn p (by simp [hp]))
          (fun p hp hpj => by
            rw [find_set_ne _ _ _ _ (hinames p hp)]
            exact hbk p (by simp [hp]) hpj)
        refine ⟨s2, ?_, ?_, ?_⟩
        · simp only [deleteOthers, if_neg hij, hbk0, hK, hKe]
          exact hdel
        · intro p hp hpj hpne kb vb hm
          rcases List.mem_cons.mp hp with rfl | hp2
          · exact absurd hie hpne
          · obtain ⟨bk2, hfind2, hres2⟩ := hprop p hp2 hpj hpne kb vb hm
            rw [find_set_ne _ _ _ _ (hinames p hp2)] at hfind2
            exact ⟨bk2, hfind2, hres2⟩
        · intro nm hnm
          rw [hframe nm (fun q hq => hnm q (by simp [hq]))]
          apply find_set_ne
          rcases hnm (i, info) (by simp) with h1 | h2
          · exact absurd h1 hij
          · exact h2
      · have hvi : info.validFor fields.length := by
          rcases hv (i, info) (by simp) with he | hval
          · exact absurd he hie
          · exact hval
        obtain ⟨kb0, vb0, hm0, _, _⟩ := marshal_spec info fields hvi hna
        obtain ⟨K, hK, hKe⟩ := deleteKey_spec info fields hvi hna
          (hnn (i, info) (by simp)) kb0 vb0 hm0
        obtain ⟨s2, hdel, hprop, hframe⟩ := ih
          (store.set (indicesName i) { bk with entries := bdelete kb0 bk.entries })
          hnd.2
          (fun p hp => hv p (by simp [hp]))
          (fun p hp => hnn p (by simp [hp]))
          (fun p hp hpj => by
            rw [find_set_ne _ _ _ _ (hinames p hp)]
            exact hbk p (by simp [hp]) hpj)
        refine ⟨s2, ?_, ?_, ?_⟩
        · simp only [deleteOthers, if_neg hij, hbk0, hK, hKe]
          exact hdel
        · intro p hp hpj hpne kb vb hm
          rcases List.mem_cons.mp hp with rfl | hp2
          · rw [hm] at hm0
            injection hm0 with hx1
            injection hx1 with hx2 hx3
            injection hx2 with hx4
            subst hx4
            refine ⟨bk, hbk0, ?_⟩
            rw [hframe (indicesName i) (fun q hq => Or.inr (hinames q hq).symm)]
            exact find_set_self _ _ _ _ hbk0
          · obtain ⟨bk2, hfind2, hres2⟩ := hprop p hp2 hpj hpne kb vb hm
            rw [find_set_ne _ _ _ _ (hinames p hp2)] at hfind2
            exact ⟨bk2, hfind2, hres2⟩
        · intro nm hnm
          rw [hframe nm (fun q hq => hnm q (by simp [hq]))]
          apply find_set_ne
          rcases hnm (i, info) (by simp) with h1 | h2
          · exact absurd h1 hij
          · exact h2

theorem entriesAt_of_find (s : Store) (nm : String) (bk : Bucket)
    (h : s.find nm = some bk) : s.entriesAt nm = bk.entries := by
  simp [Store.entriesAt, h]

theorem mem_nodup_pair_eq {β : Type} (l : List (String × β)) (p q : String × β)
    (hnd : (l.map Prod.fst).Nodup) (hp : p ∈ l) (hq : q ∈ l) (h : p.1 = q.1) :
    p = q := by
  have h1 : List.lookup p.1 l = some p.2 := lookup_eq_of_mem_nodup l p.1 p.2 hnd hp
  have h2 : List.lookup q.1 l = some q.2 := lookup_eq_of_mem_nodup l q.1 q.2 hnd hq
  rw [h, h2] at h1
  injection h1 with h3
  rcases p with ⟨p1, p2⟩
  rcases q with ⟨q1, q2⟩
  simp only at h h3
  rw [h, h3]

theorem unmarshal_det (info : indexinfo) (fields : List Value)
    (hv : info.validFor fields.length) (hna : ∀ f ∈ fields, f ≠ .auto)
    (kb vb : List Nat) (hm : info.marshalKeyValue fields = .ok (some kb, vb)) :
    info.unmarshalKeyValue kb vb = .ok fields := by
  obtain ⟨kb2, vb2, hm2, hu2, _, _⟩ := marshal_unmarshal info fields hv hna
  rw [hm] at hm2
  injection hm2 with h1
  injection h1 with h2 h3
  injection h2 with h4
  subst h4
  subst h3
  exact hu2

theorem put_then_delete_spec (t : Table) (fields : List Value) (store : Store)
    (b : Bucket)
    (htb : store.find t.name = some b)
    (hnd : (t.indices.map Prod.fst).Nodup)
    (hnc : ∀ p ∈ t.indices, indicesName p.1 ≠ t.name)
    (hv : ∀ p ∈ t.indices, (p.2).iplist = [] ∨ (p.2).validFor fields.length)
    (hb : ∀ p ∈ t.indices, ∃ bk, store.find (indicesName p.1) = some bk ∧
      sortedB bk.entries = true)
    (hna : ∀ f ∈ fields, f ≠ Value.auto) :
    ∃ s1, t.Put fields store = (0, .ok s1) ∧
      (∀ p ∈ t.indices, (p.2).iplist ≠ [] → ∃ kb vb,
        (p.2).marshalKeyValue fields = .ok (some kb, vb) ∧
        lookupB kb (s1.entriesAt (indicesName p.1)) = some vb ∧
        (p.2).unmarshalKeyValue kb vb = .ok fields) ∧
      ((∀ p ∈ t.indices, ∀ ip ∈ (p.2).iplist, ∀ fv,
          fields.get? ip.field = some fv → fv ≠ Value.null) →
        ∀ j ∈ t.indices, (j.2).iplist ≠ [] →
        ∃ s2, t.Delete j.1 fields s1 = .ok s2 ∧
          (∀ p ∈ t.indices, ∀ kb vb,
            (p.2).marshalKeyValue fields = .ok (some kb, vb) →
            lookupB kb (s2.entriesAt (indicesName p.1)) = none)) := by
  have hra : resolveAuto fields b.seq = (fields, b.seq) := resolveAuto_id fields b.seq hna
  obtain ⟨s1, hput, hprop, hframe⟩ := Put_spec_mixed t fields store b htb hnd hnc hv
    (fun p hp => (hb p hp).imp (fun bk hbk => hbk.1))
  rw [hra] at hprop
  have hvalid : ∀ p ∈ t.indices, (p.2).iplist ≠ [] → (p.2).validFor fields.length := by
    intro p hp hpne
    rcases hv p hp with he | hval
    · exact absurd he hpne
    · exact hval
  have hsorted : ∀ p ∈ t.indices, (p.2).iplist ≠ [] → ∃ bk kb vb,
      store.find (indicesName p.1) = some bk ∧ sortedB bk.entries = true ∧
      (p.2).marshalKeyValue fields = .ok (some kb, vb) ∧
      s1.find (indicesName p.1) = some { bk with entries := bput kb vb bk.entries } := by
    intro p hp hpne
    obtain ⟨bk, kb, vb, hfind, hm, hres⟩ := hprop p hp hpne
    obtain ⟨bk2, hfind2, hsort2⟩ := hb p hp
    rw [hfind] at hfind2
    injection hfind2 with he
    subst he
    exact ⟨bk, kb, vb, hfind, hsort2, hm, hres⟩
  refine ⟨s1, hput, ?_, ?_⟩
  · intro p hp hpne
    obtain ⟨bk, kb, vb, hfind, hsort, hm, hres⟩ := hsorted p hp hpne
    refine ⟨kb, vb, hm, ?_, unmarshal_det _ _ (hvalid p hp hpne) hna kb vb hm⟩
    rw [entriesAt_of_find _ _ _ hres]
    exact lookupB_bput_self kb vb bk.entries
  · intro hnn j hj hjne
    obtain ⟨bkj, kbj, vbj, hfindj, hsortj, hmj, hresj⟩ := hsorted j hj hjne
    have hsort1 : sortedB (bput kbj vbj bkj.entries) = true :=
      sortedB_bput kbj vbj bkj.entries hsortj
    have hgi : t.getInfo j.1 = j.2 := by
      unfold Table.getInfo
      rw [lookup_eq_of_mem_nodup t.indices j.1 j.2 hnd hj]
    have hseek : bseek kbj (bput kbj vbj bkj.entries) = some (kbj, vbj) :=
      bseek_exact kbj _ vbj hsort1 (lookupB_bput_self kbj vbj bkj.entries)
    have hinamesj : ∀ p ∈ t.indices, p.1 ≠ j.1 →
        indicesName p.1 ≠ indicesName j.1 := by
      intro p hp hpj he
      exact hpj (indicesName_inj _ _ he)
    have hbk1 : ∀ p ∈ t.indices, p.1 ≠ j.1 → ∃ bk,
        (s1.set (indicesName j.1)
          { entries := bdelete kbj (bput kbj vbj bkj.entries), seq := bkj.seq }).find
          (indicesName p.1) = some bk := by
      intro p hp hpj
      rw [find_set_ne _ _ _ _ (hinamesj p hp hpj)]
      by_cases hpne : (p.2).iplist = []
      · have hcond : ∀ q ∈ t.indices, (q.2).iplist ≠ [] →
            indicesName p.1 ≠ indicesName q.1 := by
          intro q hq hqne heq
          have hpq : p = q :=
            mem_nodup_pair_eq t.indices p q hnd hp hq (indicesName_inj _ _ heq)
          exact hqne (hpq ▸ hpne)
        rw [hframe (indicesName p.1) (hnc p hp) hcond]
        exact (hb p hp).imp fun bk hbk => hbk.1
      · obtain ⟨bk, kb, vb, _, _, _, hres⟩ := hsorted p hp hpne
        exact ⟨_, hres⟩
    obtain ⟨s2, hdel2, hprop2, hframe2⟩ := deleteOthers_spec_mixed j.1 fields
      t.indices
      (s1.set (indicesName j.1)
        { entries := bdelete kbj (bput kbj vbj bkj.entries), seq := bkj.seq })
      hnd hv hna hnn hbk1
    have hun : (j.2).unmarshalKeyValue kbj vbj = .ok fields :=
      unmarshal_det _ _ (hvalid j hj hjne) hna kbj vbj hmj
    refine ⟨s2, ?_, ?_⟩
    · simp only [Table.Delete, hresj, hgi, hmj, hseek, if_pos rfl, hun]
      exact hdel2
    · intro p hp kb vb hm
      have hpne : (p.2).iplist ≠ [] := by
        intro he
        rw [marshal_of_empty (p.2) fields he] at hm
        injection hm with h1
        injection h1 with h2 h3
        exact Option.noConfusion h2
      obtain ⟨bk, kb2, vb2, hfind, hsort, hm2, hres⟩ := hsorted p hp hpne
      rw [hm] at hm2
      injection hm2 with h1
      injection h1 with h2 h3
      injection h2 with h4
      subst h4
      subst h3
      by_cases hpj : p.1 = j.1
      · have hpeq : p = j := mem_nodup_pair_eq t.indices p j hnd hp hj hpj
        subst hpeq
        rw [hm] at hmj
        injection hmj with h5
        injection h5 with h6 h7
        injection h6 with h8
        subst h8
        have hfr : s2.find (indicesName p.1) = some
            { entries := bdelete kb (bput kb vbj bkj.entries), seq := bkj.seq } := by
          rw [hframe2 (indicesName p.1) ?_]
          · exact find_set_self s1 _ _ _ hresj
          · intro q hq
            by_cases hqj : q.1 = p.1
            · exact Or.inl hqj
            · exact Or.inr (fun he => hqj (indicesName_inj _ _ he).symm)
        rw [entriesAt_of_find _ _ _ hfr]
        subst h7
        exact lookupB_bdelete_self kb _ hsort1
      · obtain ⟨bk3, hfind3, hres3⟩ := hprop2 p hp hpj hpne kb vb hm
        rw [find_set_ne _ _ _ _ (hinamesj p hp hpj), hres] at hfind3
        injection hfind3 with h9
        rw [entriesAt_of_find _ _ _ hres3, ← h9]
        exact lookupB_bdelete_self kb _ (sortedB_bput kb vb bk.entries hsort)

/-- C2 (amended): after `Put(table, r)` succeeds (r's fields encodable),
every declared index that selects at least one field (valid for r's
arity) contains an entry that decodes back to r's field values — declared
zero-field indices are skipped and hold no entry.  If additionally no
field selected by any declared index is null, then after `Delete` of r
through any index selecting at least one field succeeds, no declared
index still contains an entry under r's composite key (the sibling keys
`Delete` recomputes with the raw encoder then byte-match the keys `Put`
wrote with the null-ordering-aware one). -/
theorem C2_multi_index_consistency (t : Table) (fields : List Value)
    (store : Store) (b : Bucket)
    (htb : store.find t.name = some b)
    (hnd : (t.indices.map Prod.fst).Nodup)
    (hnc : ∀ p ∈ t.indices, indicesName p.1 ≠ t.name)
    (hv : ∀ p ∈ t.indices, (p.2).iplist = [] ∨ (p.2).validFor fields.length)
    (hb : ∀ p ∈ t.indices, store.find (indicesName p.1) ≠ none ∧
      sortedB (store.entriesAt (indicesName p.1)) = true)
    (hna : ∀ f ∈ fields, f ≠ Value.auto) :
    ∃ s1, t.Put fields store = (0, .ok s1) ∧
      (∀ p ∈ t.indices, (p.2).iplist ≠ [] → ∃ kb vb,
        (p.2).marshalKeyValue fields = .ok (some kb, vb) ∧
        lookupB kb (s1.entriesAt (indicesName p.1)) = some vb ∧
        (p.2).unmarshalKeyValue kb vb = .ok fields) ∧
      ((∀ p ∈ t.indices, ∀ ip ∈ (p.2).iplist,
          fields.get? ip.field ≠ some Value.null) →
        ∀ j ∈ t.indices, (j.2).iplist ≠ [] →
        ∃ s2, t.Delete j.1 fields s1 = .ok s2 ∧
          (∀ p ∈ t.indices, ∀ kb vb,
            (p.2).marshalKeyValue fields = .ok (some kb, vb) →
            lookupB kb (s2.entriesAt (indicesName p.1)) = none)) := by
  obtain ⟨s1, hput, hentries, hdel⟩ := put_then_delete_spec t fields store b
    htb hnd hnc hv
    (fun p hp => by
      obtain ⟨hfind, hsort⟩ := hb p hp
      cases hfb : store.find (indicesName p.1) with
      | none => exact absurd hfb hfind
      | some bk =>
        rw [entriesAt_of_find _ _ _ hfb] at hsort
        exact ⟨bk, rfl, hsort⟩)
    hna
  refine ⟨s1, hput, hentries, ?_⟩
  intro hnn
  exact hdel (fun p hp ip hip fv hget he => hnn p hp ip hip (he ▸ hget))

/-- Counterexample to C2 as stated, in two parts.  First, a declared
index selecting zero fields: `Put` succeeds (the zero-field index
marshals to a `nil` key and is skipped), yet that declared index contains
no entry at all afterwards.  Second, the null divergence: a record with a
null in a `nilFirst` index's key field — `Put` writes the key under the
null-ordering-aware encoder (`EncodeNils true [null]`, key `[0]`), but
`Delete` through the sibling index recomputes the key with the raw
encoder (`Encode [null]`, key `[6]`), so the delete succeeds while the
`n1` index still contains r's entry (the claim says the recomputed keys
byte-match and no index retains an entry for r). -/
theorem C2_counterexample :
    ((Table.mk "t2" [("i0", ⟨false, []⟩)]).Put [Value.uint 7]
        (Store.mk [("t2", ⟨[], 0⟩), ("i0_idx", ⟨[], 0⟩)]) =
      (0, .ok (Store.mk [("t2", ⟨[], 0⟩), ("i0_idx", ⟨[], 0⟩)])) ∧
     (Store.mk [("t2", ⟨[], 0⟩), ("i0_idx", ⟨[], 0⟩)]).entriesAt
      (indicesName "i0") = []) ∧
    ((Table.mk "tn" [("n1", ⟨true, [⟨0, 0⟩]⟩), ("n2", ⟨false, [⟨1, 0⟩]⟩)]).Put
        [Value.null, Value.uint 1]
        (Store.mk [("tn", ⟨[], 0⟩), ("n1_idx", ⟨[], 0⟩), ("n2_idx", ⟨[], 0⟩)]) =
      (0, .ok (Store.mk [("tn", ⟨[], 0⟩), ("n1_idx", ⟨[([0], [1, 1, 0])], 0⟩),
        ("n2_idx", ⟨[([1, 1, 0], [6])], 0⟩)])) ∧
     (Table.mk "tn" [("n1", ⟨true, [⟨0, 0⟩]⟩), ("n2", ⟨false, [⟨1, 0⟩]⟩)]).Delete
        "n2" [Value.null, Value.uint 1]
        (Store.mk [("tn", ⟨[], 0⟩), ("n1_idx", ⟨[([0], [1, 1, 0])], 0⟩),
          ("n2_idx", ⟨[([1, 1, 0], [6])], 0⟩)]) =
      .ok (Store.mk [("tn", ⟨[], 0⟩), ("n1_idx", ⟨[([0], [1, 1, 0])], 0⟩),
        ("n2_idx", ⟨[], 0⟩)]) ∧
     (indexinfo.mk true [⟨0, 0⟩]).marshalKeyValue [Value.null, Value.uint 1] =
      .ok (some [0], [1, 1, 0]) ∧
     lookupB [0] ((Store.mk [("tn", ⟨[], 0⟩), ("n1_idx", ⟨[([0], [1, 1, 0])], 0⟩),
        ("n2_idx", ⟨[], 0⟩)]).entriesAt (indicesName "n1")) = some [1, 1, 0]) := by
  refine ⟨⟨?_, ?_⟩, ?_, ?_, ?_, ?_⟩
  · decide
  · decide
  · decide
  · decide
  · decide
  · decide

/-- Witness for the amended C2 at a mixed concrete table: one zero-field
index (skipped) and two single-field indices. -/
theorem C2_multi_index_consistency_witness :
    ∃ s1, (Table.mk "t" [("i0", ⟨true, []⟩), ("i1", ⟨false, [⟨0, 0⟩]⟩),
        ("i2", ⟨true, [⟨1, 0⟩]⟩)]).Put
        [Value.uint 1, Value.uint 2]
        (Store.mk [("t", ⟨[], 0⟩), ("i0_idx", ⟨[], 0⟩), ("i1_idx", ⟨[], 0⟩),
          ("i2_idx", ⟨[], 0⟩)]) =
        (0, .ok s1) ∧
      (∀ p ∈ (Table.mk "t" [("i0", ⟨true, []⟩), ("i1", ⟨false, [⟨0, 0⟩]⟩),
          ("i2", ⟨true, [⟨1, 0⟩]⟩)]).indices, (p.2).iplist ≠ [] → ∃ kb vb,
        (p.2).marshalKeyValue [Value.uint 1, Value.uint 2] = .ok (some kb, vb) ∧
        lookupB kb (s1.entriesAt (indicesName p.1)) = some vb ∧
        (p.2).unmarshalKeyValue kb vb = .ok [Value.uint 1, Value.uint 2]) ∧
      ((∀ p ∈ (Table.mk "t" [("i0", ⟨true, []⟩), ("i1", ⟨false, [⟨0, 0⟩]⟩),
          ("i2", ⟨true, [⟨1, 0⟩]⟩)]).indices, ∀ ip ∈ (p.2).iplist,
          [Value.uint 1, Value.uint 2].get? ip.field ≠ some Value.null) →
        ∀ j ∈ (Table.mk "t" [("i0", ⟨true, []⟩), ("i1", ⟨false, [⟨0, 0⟩]⟩),
          ("i2", ⟨true, [⟨1, 0⟩]⟩)]).indices, (j.2).iplist ≠ [] →
        ∃ s2, (Table.mk "t" [("i0", ⟨true, []⟩), ("i1", ⟨false, [⟨0, 0⟩]⟩),
            ("i2", ⟨true, [⟨1, 0⟩]⟩)]).Delete
          j.1 [Value.uint 1, Value.uint 2] s1 = .ok s2 ∧
        (∀ p ∈ (Table.mk "t" [("i0", ⟨true, []⟩), ("i1", ⟨false, [⟨0, 0⟩]⟩),
            ("i2", ⟨true, [⟨1, 0⟩]⟩)]).indices, ∀ kb vb,
          (p.2).marshalKeyValue [Value.uint 1, Value.uint 2] = .ok (some kb, vb) →
          lookupB kb (s2.entriesAt (indicesName p.1)) = none)) :=
  C2_multi_index_consistency
    (Table.mk "t" [("i0", ⟨true, []⟩), ("i1", ⟨false, [⟨0, 0⟩]⟩),
      ("i2", ⟨true, [⟨1, 0⟩]⟩)])
    [Value.uint 1, Value.uint 2]
    (Store.mk [("t", ⟨[], 0⟩), ("i0_idx", ⟨[], 0⟩), ("i1_idx", ⟨[], 0⟩),
      ("i2_idx", ⟨[], 0⟩)])
    ⟨[], 0⟩ (by decide) (by decide) (by decide) (by decide) (by decide) (by decide)

/-- C8: auto-field resolution — in every `Put` call, each `AUTOINCREMENT`
marker of the record's field list is replaced by a value drawn from the
table's sequence generator before any index encoding happens; every
declared index of that `Put` therefore stores an entry for the same
substituted field list (which no longer contains a marker), and that
entry decodes back to the substituted fields. -/
theorem C8_auto_field_resolution (t : Table) (fields : List Value)
    (store : Store) (b : Bucket)
    (htb : store.find t.name = some b)
    (hnd : (t.indices.map Prod.fst).Nodup)
    (hnc : ∀ p ∈ t.indices, indicesName p.1 ≠ t.name)
    (hv : ∀ p ∈ t.indices, (p.2).validFor fields.length)
    (hb : ∀ p ∈ t.indices, store.find (indicesName p.1) ≠ none) :
    ∃ s1, t.Put fields store = (0, .ok s1) ∧
      (∀ f ∈ (resolveAuto fields b.seq).1, f ≠ Value.auto) ∧
      (∀ p ∈ t.indices, ∃ kb vb,
        (p.2).marshalKeyValue (resolveAuto fields b.seq).1 = .ok (some kb, vb) ∧
        lookupB kb (s1.entriesAt (indicesName p.1)) = some vb ∧
        (p.2).unmarshalKeyValue kb vb = .ok (resolveAuto fields b.seq).1) := by
  obtain ⟨s1, hput, hprop, _⟩ := Put_spec t fields store b htb hnd hnc hv
    (fun p hp => by
      cases hfb : store.find (indicesName p.1) with
      | none => exact absurd hfb (hb p hp)
      | some bk => exact ⟨bk, rfl⟩)
  refine ⟨s1, hput, resolveAuto_no_auto fields b.seq, ?_⟩
  intro p hp
  obtain ⟨bk, kb, vb, hfind, hm, hres⟩ := hprop p hp
  refine ⟨kb, vb, hm, ?_, ?_⟩
  · rw [entriesAt_of_find _ _ _ hres]
    exact lookupB_bput_self kb vb bk.entries
  · exact unmarshal_det (p.2) (resolveAuto fields b.seq).1
      (resolveAuto_length fields b.seq ▸ hv p hp)
      (resolveAuto_no_auto fields b.seq) kb vb hm

/-- Witness for C8: a one-index table and a record whose only field is the
`AUTOINCREMENT` marker. -/
theorem C8_auto_field_resolution_witness :
    ∃ s1, (Table.mk "t8" [("a1", ⟨false, [⟨0, 0⟩]⟩)]).Put [Value.auto]
        (Store.mk [("t8", ⟨[], 0⟩), ("a1_idx", ⟨[], 0⟩)]) = (0, .ok s1) ∧
      (∀ f ∈ (resolveAuto [Value.auto] (0 : Nat)).1, f ≠ Value.auto) ∧
      (∀ p ∈ (Table.mk "t8" [("a1", ⟨false, [⟨0, 0⟩]⟩)]).indices, ∃ kb vb,
        (p.2).marshalKeyValue (resolveAuto [Value.auto] (0 : Nat)).1 =
          .ok (some kb, vb) ∧
        lookupB kb (s1.entriesAt (indicesName p.1)) = some vb ∧
        (p.2).unmarshalKeyValue kb vb = .ok (resolveAuto [Value.auto] (0 : Nat)).1) :=
  C8_auto_field_resolution
    (Table.mk "t8" [("a1", ⟨false, [⟨0, 0⟩]⟩)]) [Value.auto]
    (Store.mk [("t8", ⟨[], 0⟩), ("a1_idx", ⟨[], 0⟩)]) ⟨[], 0⟩
    (by decide) (by decide) (by decide) (by decide) (by decide)

theorem unmarshalLoop_shape (vk : List Value) (count : Nat) :
    ∀ (ipl : List indexpos) (vv : List Value) (i : Nat),
      (∃ l, unmarshalLoop vk ipl vv i count = .ok l) ∨
      unmarshalLoop vk ipl vv i count = .error .panicOOB := by
  induction count with
  | zero =>
    intro ipl vv i
    exact Or.inl ⟨[], unmarshalLoop_zero vk ipl vv i⟩
  | succ c ih =>
    intro ipl vv i
    cases ipl with
    | cons ip ipr =>
      simp only [unmarshalLoop]
      by_cases hf : i = ip.field
      · rw [if_pos hf]
        cases vk.get? ip.pos with
        | none => exact Or.inr rfl
        | some x =>
          rcases ih ipr vv (i + 1) with ⟨l, hl⟩ | hl
          · exact Or.inl ⟨x :: l, by rw [hl]⟩
          · exact Or.inr (by rw [hl])
      · rw [if_neg hf]
        cases vv with
        | nil => exact Or.inr rfl
        | cons y ys =>
          rcases ih (ip :: ipr) ys (i + 1) with ⟨l, hl⟩ | hl
          · exact Or.inl ⟨y :: l, by simp only [hl]⟩
          · exact Or.inr (by simp only [hl])
    | nil =>
      simp only [unmarshalLoop]
      cases vv with
      | nil => exact Or.inr rfl
      | cons y ys =>
        rcases ih [] ys (i + 1) with ⟨l, hl⟩ | hl
        · exact Or.inl ⟨y :: l, by simp only [hl]⟩
        · exact Or.inr (by simp only [hl])

theorem unmarshal_ne_noKey (info : indexinfo) (k v : List Nat) :
    info.unmarshalKeyValue k v ≠ .error Err.noKey := by
  unfold indexinfo.unmarshalKeyValue
  cases DecodeAll false k with
  | none => intro h; injection h with h1; exact Err.noConfusion h1
  | some vkey =>
    cases DecodeAll false v with
    | none => intro h; injection h with h1; exact Err.noConfusion h1
    | some vval =>
      show unmarshalLoop vkey info.iplist vval 0 (vkey.length + vval.length) ≠
        .error Err.noKey
      rcases unmarshalLoop_shape vkey (vkey.length + vval.length) info.iplist vval 0
        with ⟨l, hl⟩ | hl
      · rw [hl]; intro h; exact Except.noConfusion h
      · rw [hl]; intro h; injection h with h1; exact Err.noConfusion h1

theorem lookupB_mem_some (k : List Nat) (l : List Entry) (v : List Nat)
    (h : (k, v) ∈ l) : ∃ v0, lookupB k l = some v0 := by
  induction l with
  | nil => simp at h
  | cons e rest ih =>
    rcases e with ⟨k0, v0⟩
    simp only [lookupB]
    by_cases h1 : k0 = k
    · rw [if_pos h1]
      exact ⟨v0, rfl⟩
    · rw [if_neg h1]
      rcases List.mem_cons.mp h with he | hm
      · injection he with h2 h3
        exact absurd h2.symm h1
      · exact ih hm

/-- Behaviour of `Delete` on a seek miss, in general: when the index's
key space holds no entry byte-equal to the marshalled search key, the
entry found by the seek fails the `bytes.Equal` guard and the function
falls through to `return nil` — it deletes nothing and reports no error;
a `nil` marshalled search key (zero-field or unknown index) is the only
path that reports `NO_KEY`. -/
theorem delete_seek_miss_behaviour (t : Table) (index : String)
    (keyFields : List Value) (store : Store) (b : Bucket)
    (hbf : store.find (indicesName index) = some b) :
    (∀ sk vv, (t.getInfo index).marshalKeyValue keyFields = .ok (some sk, vv) →
      (∀ e ∈ b.entries, e.1 ≠ sk) →
      t.Delete index keyFields store = .ok store) ∧
    (∀ vv, (t.getInfo index).marshalKeyValue keyFields = .ok (none, vv) →
      t.Delete index keyFields store = .error .noKey) := by
  constructor
  · intro sk vv hm hmiss
    simp only [Table.Delete, hbf, hm]
    cases hsk : bseek sk b.entries with
    | none => rfl
    | some e =>
      rcases e with ⟨k, v⟩
      have hne : k ≠ sk := hmiss (k, v) (bseek_mem sk b.entries (k, v) hsk)
      simp [hne]
  · intro vv hm
    simp only [Table.Delete, hbf, hm]

/-- C3 (code behaviour at the failing input): the index bucket holds only
the key of `uint 3` and `Delete` is called with key record `uint 2`; the
seek returns the larger key, it is not byte-equal, and `Delete` returns
success (nil, deleting nothing) where the claim — the spec's explicit
`report NO_KEY` requirement and its delete-again-returns-`NO_KEY`
scenario — requires the `NO_KEY` error.  `Get` at the very same miss
performs the identical seek-and-byte-equal check and does return
`NO_KEY`, confirming that the silent success in `Delete` is the slip. -/
theorem C3_delete_miss_eval :
    (Table.mk "t3" [("i1", ⟨false, [⟨0, 0⟩]⟩)]).Delete "i1" [Value.uint 2]
        (Store.mk [("t3", ⟨[], 0⟩), ("i1_idx", ⟨[([1, 1, 1, 1, 0], [])], 0⟩)]) =
      .ok (Store.mk [("t3", ⟨[], 0⟩), ("i1_idx", ⟨[([1, 1, 1, 1, 0], [])], 0⟩)]) ∧
    (Except.ok (Store.mk [("t3", ⟨[], 0⟩),
        ("i1_idx", ⟨[([1, 1, 1, 1, 0], [])], 0⟩)]) : Except Err Store) ≠
      .error .noKey ∧
    (Table.mk "t3" [("i1", ⟨false, [⟨0, 0⟩]⟩)]).Get "i1" [Value.uint 2]
        (Store.mk [("t3", ⟨[], 0⟩), ("i1_idx", ⟨[([1, 1, 1, 1, 0], [])], 0⟩)]) =
      .error .noKey := by
  refine ⟨?_, ?_, ?_⟩
  · decide
  · decide
  · decide

/-- C4: exact-match get — with the index bucket present and sorted and a
non-nil marshalled search key, `Get` returns `NO_KEY` exactly when no
stored entry's key is byte-equal to the search key (even when a
lexicographically larger entry exists, since the seek's result is then
rejected); on an exact match it decodes that entry and returns its
record. -/
theorem C4_get_exact_match (t : Table) (index : String)
    (keyFields : List Value) (store : Store) (b : Bucket) (sk vv : List Nat)
    (hbf : store.find (indicesName index) = some b)
    (hs : sortedB b.entries = true)
    (hm : (t.getInfo index).marshalKeyValue keyFields = .ok (some sk, vv)) :
    (t.Get index keyFields store = .error .noKey ↔ lookupB sk b.entries = none) ∧
    (∀ v flds, lookupB sk b.entries = some v →
      (t.getInfo index).unmarshalKeyValue sk v = .ok flds →
      t.Get index keyFields store = .ok flds) := by
  constructor
  · cases hlk : lookupB sk b.entries with
    | some v =>
      have hseek := bseek_exact sk b.entries v hs hlk
      constructor
      · intro h
        cases hu : (t.getInfo index).unmarshalKeyValue sk v with
        | error e =>
          have hg : t.Get index keyFields store = .error e := by
            simp [Table.Get, hbf, hm, hseek, hu]
          rw [hg] at h
          injection h with h1
          subst h1
          exact absurd hu (unmarshal_ne_noKey _ _ _)
        | ok flds =>
          have hg : t.Get index keyFields store = .ok flds := by
            simp [Table.Get, hbf, hm, hseek, hu]
          rw [hg] at h
          exact Except.noConfusion h
      · intro h
        exact Option.noConfusion h
    | none =>
      cases hsk : bseek sk b.entries with
      | none =>
        have hg : t.Get index keyFields store = .error .noKey := by
          simp [Table.Get, hbf, hm, hsk]
        simp [hg]
      | some e =>
        rcases e with ⟨k, v⟩
        have hne : k ≠ sk := by
          intro he
          subst he
          obtain ⟨v0, hv0⟩ := lookupB_mem_some k b.entries v
            (bseek_mem k b.entries (k, v) hsk)
          rw [hv0] at hlk
          exact Option.noConfusion hlk
        have hg : t.Get index keyFields store = .error .noKey := by
          simp [Table.Get, hbf, hm, hsk, hne]
        simp [hg]
  · intro v flds hlk hu
    have hseek := bseek_exact sk b.entries v hs hlk
    simp [Table.Get, hbf, hm, hseek, hu]

/-- Witness for C4: an exact match is decoded and returned. -/
theorem C4_get_exact_match_witness :
    (Table.mk "t4" [("g1", ⟨false, [⟨0, 0⟩]⟩)]).Get "g1" [Value.uint 5]
        (Store.mk [("t4", ⟨[], 0⟩),
          ("g1_idx", ⟨[([1, 1, 1, 1, 1, 1, 0], [])], 0⟩)]) =
      .ok [Value.uint 5] :=
  (C4_get_exact_match (Table.mk "t4" [("g1", ⟨false, [⟨0, 0⟩]⟩)]) "g1"
    [Value.uint 5]
    (Store.mk [("t4", ⟨[], 0⟩), ("g1_idx", ⟨[([1, 1, 1, 1, 1, 1, 0], [])], 0⟩)])
    ⟨[([1, 1, 1, 1, 1, 1, 0], [])], 0⟩ [1, 1, 1, 1, 1, 1, 0] []
    (by decide) (by decide) (by decide)).2
    [] [Value.uint 5] (by decide) (by decide)

/-- C9: the `uint64` record key `Put` returns is never assigned inside
the transaction — the loop's short-variable declaration shadows it — so
`Put` returns 0 as the key, for every table, record and store (on
success and on failure alike, hence in particular on success). -/
theorem C9_put_returns_zero (t : Table) (fields : List Value) (store : Store) :
    (t.Put fields store).1 = 0 :=
  rfl

theorem Get_congr (t : Table) (index : String) (keyFields : List Value)
    (s s2 : Store)
    (h : ∀ nm, (s.find nm).map Bucket.entries = (s2.find nm).map Bucket.entries) :
    t.Get index keyFields s = t.Get index keyFields s2 := by
  have h2 := h (indicesName index)
  unfold Table.Get
  cases hs : s.find (indicesName index) with
  | none =>
    cases hs2 : s2.find (indicesName index) with
    | none => rfl
    | some b2 => rw [hs, hs2] at h2; simp at h2
  | some b =>
    cases hs2 : s2.find (indicesName index) with
    | none => rw [hs, hs2] at h2; simp at h2
    | some b2 =>
      rw [hs, hs2] at h2
      simp only [Option.map_some'] at h2
      injection h2 with h3
      simp only [h3]

theorem Scan_congr (t : Table) (index : String) (asc : Bool)
    (start : Option (List Value)) (cb : List Value → Option Err → Bool)
    (s s2 : Store)
    (h : ∀ nm, (s.find nm).map Bucket.entries = (s2.find nm).map Bucket.entries) :
    t.Scan index asc start cb s = t.Scan index asc start cb s2 := by
  have h2 := h (indicesName index)
  unfold Table.Scan
  cases hs : s.find (indicesName index) with
  | none =>
    cases hs2 : s2.find (indicesName index) with
    | none => rfl
    | some b2 => rw [hs, hs2] at h2; simp at h2
  | some b =>
    cases hs2 : s2.find (indicesName index) with
    | none => rw [hs, hs2] at h2; simp at h2
    | some b2 =>
      rw [hs, hs2] at h2
      simp only [Option.map_some'] at h2
      injection h2 with h3
      simp only [h3]

theorem ForEach_congr (t : Table) (index : String) (s s2 : Store)
    (h : ∀ nm, (s.find nm).map Bucket.entries = (s2.find nm).map Bucket.entries) :
    t.ForEach index s = t.ForEach index s2 := by
  have h2 := h (if index.length > 0 then indicesName index else t.name)
  show (match s.find (if index.length > 0 then indicesName index else t.name) with
    | none => (Except.error Err.noIndex : Except Err (List Entry))
    | some b => .ok b.entries) =
    (match s2.find (if index.length > 0 then indicesName index else t.name) with
    | none => (Except.error Err.noIndex : Except Err (List Entry))
    | some b => .ok b.entries)
  cases hs : s.find (if index.length > 0 then indicesName index else t.name) with
  | none =>
    cases hs2 : s2.find (if index.length > 0 then indicesName index else t.name) with
    | none => rfl
    | some b2 => rw [hs, hs2] at h2; simp at h2
  | some b =>
    cases hs2 : s2.find (if index.length > 0 then indicesName index else t.name) with
    | none => rw [hs, hs2] at h2; simp at h2
    | some b2 =>
      rw [hs, hs2] at h2
      simp only [Option.map_some'] at h2
      injection h2 with h3
      simp only [h3]

theorem putIndices_empty (fields : List Value) (idxs : List (String × indexinfo))
    (store : Store)
    (hempty : ∀ p ∈ idxs, (p.2).iplist = [])
    (hib : ∀ p ∈ idxs, store.find (indicesName p.1) ≠ none) :
    putIndices fields idxs store = .ok store := by
  induction idxs with
  | nil => rfl
  | cons hd rest ih =>
    rcases hd with ⟨n, info⟩
    cases hfb : store.find (indicesName n) with
    | none => exact absurd hfb (hib (n, info) (by simp))
    | some ib =>
      have hmz : info.marshalKeyValue fields = .ok (none, []) := by
        unfold indexinfo.marshalKeyValue
        rw [if_pos (by rw [hempty (n, info) (by simp)]; rfl)]
      simp only [putIndices, hfb, hmz]
      exact ih (fun p hp => hempty p (by simp [hp]))
        (fun p hp => hib p (by simp [hp]))

/-- C10: `Put` on a table with no declared indices, or whose every
declared index selects zero fields, succeeds without writing any record
data: every bucket's entries are unchanged (only the table bucket's
sequence counter may advance), so the record is never observable by a
later `Get`, `Scan` or `ForEach`, whose results over the new store are
identical to those over the old one. -/
theorem C10_put_writes_nothing (t : Table) (fields : List Value)
    (store : Store) (b : Bucket)
    (htb : store.find t.name = some b)
    (hempty : ∀ p ∈ t.indices, (p.2).iplist = [])
    (hib : ∀ p ∈ t.indices, store.find (indicesName p.1) ≠ none) :
    ∃ s1, t.Put fields store = (0, .ok s1) ∧
      (∀ nm, (s1.find nm).map Bucket.entries = (store.find nm).map Bucket.entries) ∧
      (∀ index keyFields, t.Get index keyFields s1 = t.Get index keyFields store) ∧
      (∀ index asc st cb, t.Scan index asc st cb s1 = t.Scan index asc st cb store) ∧
      (∀ index, t.ForEach index s1 = t.ForEach index store) := by
  have hset : ∀ p ∈ t.indices,
      (store.set t.name { b with seq := (resolveAuto fields b.seq).2 }).find
        (indicesName p.1) ≠ none := by
    intro p hp
    by_cases hn : indicesName p.1 = t.name
    · rw [hn, find_set_self store t.name _ b htb]
      intro h
      exact Option.noConfusion h
    · rw [find_set_ne store t.name _ _ hn]
      exact hib p hp
  have hput : putIndices (resolveAuto fields b.seq).1 t.indices
      (store.set t.name { b with seq := (resolveAuto fields b.seq).2 }) =
      .ok (store.set t.name { b with seq := (resolveAuto fields b.seq).2 }) :=
    putIndices_empty (resolveAuto fields b.seq).1 t.indices _ hempty hset
  have hentries : ∀ nm,
      ((store.set t.name { b with seq := (resolveAuto fields b.seq).2 }).find nm).map
        Bucket.entries = (store.find nm).map Bucket.entries := by
    intro nm
    by_cases hn : nm = t.name
    · rw [hn, find_set_self store t.name _ b htb, htb]
      rfl
    · rw [find_set_ne store t.name _ _ hn]
  refine ⟨store.set t.name { b with seq := (resolveAuto fields b.seq).2 },
    ?_, hentries, ?_, ?_, ?_⟩
  · simp only [Table.Put, htb]
    rw [hput]
  · intro index keyFields
    exact Get_congr t index keyFields _ _ hentries
  · intro index asc st cb
    exact Scan_congr t index asc st cb _ _ hentries
  · intro index
    exact ForEach_congr t index _ _ hentries

/-- Witness for C10: a table with one zero-field index; `Put` succeeds
and every bucket's entries are untouched. -/
theorem C10_put_writes_nothing_witness :
    ∃ s1, (Table.mk "t0" [("z1", ⟨true, []⟩)]).Put [Value.uint 9]
        (Store.mk [("t0", ⟨[([0], [5])], 0⟩), ("z1_idx", ⟨[], 0⟩)]) = (0, .ok s1) ∧
      (∀ nm, (s1.find nm).map Bucket.entries =
        ((Store.mk [("t0", ⟨[([0], [5])], 0⟩), ("z1_idx", ⟨[], 0⟩)]).find nm).map
          Bucket.entries) ∧
      (∀ index keyFields, (Table.mk "t0" [("z1", ⟨true, []⟩)]).Get index keyFields s1 =
        (Table.mk "t0" [("z1", ⟨true, []⟩)]).Get index keyFields
          (Store.mk [("t0", ⟨[([0], [5])], 0⟩), ("z1_idx", ⟨[], 0⟩)])) ∧
      (∀ index asc st cb, (Table.mk "t0" [("z1", ⟨true, []⟩)]).Scan index asc st cb s1 =
        (Table.mk "t0" [("z1", ⟨true, []⟩)]).Scan index asc st cb
          (Store.mk [("t0", ⟨[([0], [5])], 0⟩), ("z1_idx", ⟨[], 0⟩)])) ∧
      (∀ index, (Table.mk "t0" [("z1", ⟨true, []⟩)]).ForEach index s1 =
        (Table.mk "t0" [("z1", ⟨true, []⟩)]).ForEach index
          (Store.mk [("t0", ⟨[([0], [5])], 0⟩), ("z1_idx", ⟨[], 0⟩)])) :=
  C10_put_writes_nothing (Table.mk "t0" [("z1", ⟨true, []⟩)]) [Value.uint 9]
    (Store.mk [("t0", ⟨[([0], [5])], 0⟩), ("z1_idx", ⟨[], 0⟩)]) ⟨[([0], [5])], 0⟩
    (by decide) (by decide) (by decide)

/-- C5 (code behaviour at the failing input): on an index entry that does
not decode, `Scan` returns the decode error from the transaction and the
callback is never invoked — the recorded invocation list is empty — so
the error is not "delivered to the callback exactly once" as the claim
(and the function's own doc comment, "Call user function with record
content or error") requires. -/
theorem C5_scan_decode_error_eval :
    (Table.mk "t5" [("i5", ⟨false, [⟨0, 0⟩]⟩)]).Scan "i5" true none
        (fun _ _ => true)
        (Store.mk [("t5", ⟨[], 0⟩), ("i5_idx", ⟨[([9], [9])], 0⟩)]) =
      ([], .error .decodeErr) := by
  decide

/-- C6 (code behaviour at the failing input): a descending scan whose
start key (`uint 1`, encoding `[1,1,0]`) precedes every stored key: the
seek lands on the first entry, it is not byte-equal, `c.Prev()` runs off
the front and returns nil, and the source falls into the `c.Last()`
branch — the scan delivers the record with key `[1,1,1,1,1,1,0]`
(`uint 5`), which is strictly greater than the start key, instead of
beginning at the largest stored key ≤ the start key (no such key
exists, so the scan should visit nothing). -/
theorem C6_descending_scan_eval :
    (Table.mk "t6" [("i6", ⟨false, [⟨0, 0⟩]⟩)]).Scan "i6" false
        (some [Value.uint 1]) (fun _ _ => true)
        (Store.mk [("t6", ⟨[], 0⟩), ("i6_idx", ⟨[([1, 1, 1, 1, 1, 1, 0], [])], 0⟩)]) =
      ([([Value.uint 5], none)], .ok ()) ∧
    blt [1, 1, 0] [1, 1, 1, 1, 1, 1, 0] = true := by
  constructor
  · decide
  · decide

/-- C7 (code behaviour at the failing input): the schema bucket of table
"t7" holds one entry whose value `[9]` cannot be decoded; the closure
inside `GetTable` produces `SCHEMA_CORRUPTED`, but the source discards
`b.ForEach(...)`'s return value, so `GetTable` succeeds and returns the
table with the corrupted index silently missing instead of failing.  The
`NO_TABLE` half of the claim does hold: an absent schema bucket fails
with `NO_TABLE`. -/
theorem C7_gettable_eval :
    DataStore.GetTable (Store.mk [("t7", ⟨[(bytesOfString "i1", [9])], 0⟩)]) "t7" =
      .ok (Table.mk "t7" []) ∧
    DataStore.GetTable (Store.mk []) "t7" = .error .noTable := by
  constructor
  · decide
  · decide
